import Mathlib

/-!
# Verification of the patchtools patch-text transformation engine

This file gives a shallow embedding, in Lean 4, of the text-processing core of
the `patchtools` repository (`patchtools/patch.py` and `patchtools/patchops.py`)
and proves properties of it.

Python strings are modelled as `List Char` (`Str`).  Each Python function that
the claims depend on is translated into an executable Lean definition that
follows the source line by line; regular expressions are expanded into explicit
character-list matching functions whose behaviour coincides with the Python
`re` calls on the patterns actually used by the source.

Modelling notes, applying throughout:
* `str.splitlines` is modelled as splitting at `'\n'`.  Python additionally
  treats `'\r'`, `'\x0b'`, `'\x0c'` and some rarer control characters as line
  boundaries; the texts manipulated here are `'\n'`-delimited patch emails.
* Python `str.rstrip()` / whitespace classes are modelled over the ASCII
  whitespace characters.
-/

abbrev Str := List Char

/-- Convert a Lean string literal to the `Str` model. -/
def str (s : String) : Str := s.data

/-- Whether `needle` occurs as a contiguous substring of `hay` (Python `in` on `str`). -/
def strIn (needle hay : Str) : Bool := hay.tails.any (needle.isPrefixOf ·)

/-- ASCII whitespace, the character class Python's `str.split()` and
`str.rstrip()` use (restricted to ASCII). -/
def pyWS (c : Char) : Bool :=
  c = ' ' || c = '\t' || c = '\n' || c = '\r' || c = '\x0b' || c = '\x0c'

/-- Python `str.rstrip()`: drop trailing whitespace. -/
def rstrip (cs : Str) : Str := (cs.reverse.dropWhile pyWS).reverse

/-- Python `str.strip(set)`: drop leading and trailing characters in `set`. -/
def pyStrip (inSet : Char → Bool) (cs : Str) : Str :=
  ((cs.dropWhile inSet).reverse.dropWhile inSet).reverse

/-- Helper for `pySplitWS`: accumulate the current word (reversed) while
scanning; emit it at each whitespace boundary. -/
def splitWSAux : Str → Str → List Str
  | acc, [] => if acc = [] then [] else [acc.reverse]
  | acc, c :: rest =>
    if pyWS c then
      if acc = [] then splitWSAux [] rest else acc.reverse :: splitWSAux [] rest
    else splitWSAux (c :: acc) rest

/-- Python `str.split()` (no argument): split on whitespace runs, no empties. -/
def pySplitWS (cs : Str) : List Str := splitWSAux [] cs

/-! ## `patchops.safe_filename` -/

/-- The character class `[_A-Z0-9a-z\.]` of `safe_filename`'s substitution. -/
def sfKeep (c : Char) : Bool :=
  c = '_' || ('A' ≤ c && c ≤ 'Z') || ('0' ≤ c && c ≤ '9') ||
    ('a' ≤ c && c ≤ 'z') || c = '.'

/-- Python `re.sub(r'[^_A-Z0-9a-z\.]', '-', name)`. -/
def sfSubst (cs : Str) : Str := cs.map (fun c => if sfKeep c then c else '-')

/-- Python `re.sub(r'-+', '-', ·)` and `re.sub(r'\.+', '.', ·)`: collapse each maximal
run of the character `t` to a single occurrence. -/
def collapseRuns (t : Char) : Str → Str
  | [] => []
  | [c] => [c]
  | c :: c' :: cs =>
    if c = t ∧ c' = t then collapseRuns t (c' :: cs)
    else c :: collapseRuns t (c' :: cs)

/-- Python `[ \t]*` used after the subject-prefix alternatives. -/
def dropSpTab (cs : Str) : Str := cs.dropWhile (fun c => c = ' ' || c = '\t')

/-- One step of the leading-prefix removal
`re.sub(r'(([Rr][Ee]:|\[PATCH[^]]*\])[ \t]*)*', '', name, count=1)`:
try to consume one `[Rr][Ee]:` or `[PATCH[^]]*\]` alternative (with trailing
spaces/tabs); `none` when neither alternative matches at the front. -/
def sfPrefixStep (cs : Str) : Option Str :=
  match cs with
  | r :: e :: ':' :: rest =>
    if (r = 'R' ∨ r = 'r') ∧ (e = 'E' ∨ e = 'e') then some (dropSpTab rest)
    else sfPrefixBracket cs
  | _ => sfPrefixBracket cs
where
  sfPrefixBracket (cs : Str) : Option Str :=
    if (str "[PATCH").isPrefixOf cs then
      let rest := cs.drop 6
      let inner := rest.takeWhile (· ≠ ']')
      match rest.drop inner.length with
      | ']' :: rest' => some (dropSpTab rest')
      | _ => none
    else none

/-- The full greedy repetition of `sfPrefixStep`, with fuel (each successful
step consumes at least one character, so `cs.length` fuel is always enough). -/
def sfStripPrefix : Nat → Str → Str
  | 0, cs => cs
  | fuel + 1, cs =>
    match sfPrefixStep cs with
    | some rest => sfStripPrefix fuel rest
    | none => cs

/-- Python `patchops.safe_filename` with the default `keep_non_patch_brackets=True`
(the empty-name early return yields the empty string). -/
def safe_filename (name : Str) : Str :=
  if name = [] then name
  else
    let name := sfStripPrefix name.length name
    let name := sfSubst name
    let name := collapseRuns '-' name
    let name := collapseRuns '.' name
    pyStrip (fun c => c = '-' || c = '.' || c = ' ') name

/-! ## `Patch.add_references` -/

/-- Python string comparison: lexicographic over character code points. -/
def pyLt : Str → Str → Bool
  | [], [] => false
  | [], _ :: _ => true
  | _ :: _, [] => false
  | c :: cs, d :: ds => if c = d then pyLt cs ds else decide (c < d)

/-- Non-strict Python string comparison, the order `list.sort` sorts by. -/
def pyLe (a b : Str) : Bool := pyLt a b || a == b

/-- The sort relation, in `Prop` form. -/
def pyLeP (a b : Str) : Prop := pyLe a b = true

instance : DecidableRel pyLeP := fun a b => inferInstanceAs (Decidable (pyLe a b = true))

/-- Python `list.sort()` on strings: a stable sort by `pyLe`.  Elements
comparing equal under `pyLe` in both directions are equal strings, so any
sorting algorithm produces the `list.sort` result. -/
def pySort (l : List Str) : List Str := l.insertionSort pyLeP

/-- The loop `for ref in refs: if ref in newrefs: newrefs.remove(ref)` of
`add_references` (`list.remove` deletes the first occurrence). -/
def removeRefs (refs newrefs : List Str) : List Str :=
  refs.foldl (fun acc ref => if ref ∈ acc then acc.erase ref else acc) newrefs

/-- Python `' '.join(...)`. -/
def joinSpace (ls : List Str) : Str := (ls.intersperse (str " ")).flatten

/-- The final token list `add_references` joins into the `References` header:
the branch on whether the header already exists, the dedup loop, the
concatenation and the sort of `Patch.add_references`. -/
def add_references_list (existing : Option Str) (newrefs : List Str) : List Str :=
  match existing with
  | some e =>
    let refs := pySplitWS e
    let newrefs := removeRefs refs newrefs
    pySort (refs ++ newrefs)
  | none => pySort newrefs

/-- Python `Patch.add_references`, at the level of the `References` header value:
`existing` is the previous header value (`none` when the header is absent) and
the result is the new header value. -/
def add_references (existing : Option Str) (newrefs : List Str) : Str :=
  joinSpace (add_references_list existing newrefs)

/-! ## `patchops.key_version` and `patchops.get_next_tag` -/

/-- A Python value appearing in a `key_version` sort key tuple. -/
inductive PyV where
  | pin (n : Int)
  | pbool (b : Bool)
  | pstr (s : Str)
deriving DecidableEq

/-- Compare two tuple components the way Python does.  Only `pin`/`pin`,
`pbool`/`pbool` and `pstr`/`pstr` comparisons are reachable from the keys
`key_version` produces at any given tuple index; on mixed int/str operands
Python raises `TypeError`, and this model fixes an arbitrary constructor-rank
order for those unreachable cases. -/
def pyCmpV : PyV → PyV → Ordering
  | .pin a, .pin b => compare a b
  | .pbool a, .pbool b => compare a b
  | .pstr a, .pstr b => if pyLt a b then .lt else if a = b then .eq else .gt
  | .pin _, _ => .lt
  | _, .pin _ => .gt
  | .pbool _, _ => .lt
  | _, .pbool _ => .gt

/-- Python tuple comparison: lexicographic, a shorter tuple that is a prefix
of a longer one compares smaller. -/
def pyCmpKey : List PyV → List PyV → Ordering
  | [], [] => .eq
  | [], _ :: _ => .lt
  | _ :: _, [] => .gt
  | a :: as_, b :: bs =>
    match pyCmpV a b with
    | .eq => pyCmpKey as_ bs
    | o => o

def isDigitCh (c : Char) : Bool := '0' ≤ c && c ≤ '9'

/-- Numeric value of a nonempty digit string, Python `int(...)`. -/
def digitsToNat (ds : Str) : Nat :=
  ds.foldl (fun n c => n * 10 + (c.toNat - '0'.toNat)) 0

/-- Python `re.match(r"v2\.(\d+)\.(\d+)(\.(\d+)|-rc(\d+)|)", tag)`: on success the
captured `(minor, patch, group4?, group5?)` digit strings.  `re.match` anchors
at the start only; trailing text is ignored. -/
def kvMatch1 (tag : Str) : Option (Str × Str × Option Str × Option Str) :=
  match tag with
  | 'v' :: '2' :: '.' :: rest =>
    let d1 := rest.takeWhile isDigitCh
    if d1 = [] then none
    else
      match rest.drop d1.length with
      | '.' :: rest2 =>
        let d2 := rest2.takeWhile isDigitCh
        if d2 = [] then none
        else
          let rest3 := rest2.drop d2.length
          -- group 3: `\.(\d+)` preferred, then `-rc(\d+)`, then empty
          match rest3 with
          | '.' :: rest4 =>
            let d4 := rest4.takeWhile isDigitCh
            if d4 = [] then some (d1, d2, none, none) else some (d1, d2, some d4, none)
          | '-' :: 'r' :: 'c' :: rest4 =>
            let d5 := rest4.takeWhile isDigitCh
            if d5 = [] then some (d1, d2, none, none) else some (d1, d2, none, some d5)
          | _ => some (d1, d2, none, none)
      | _ => none
  | _ => none

/-- Python `re.match(r"v(\d+)\.(\d+)(-rc(\d+)|)", tag)`: on success the captured
`(major, minor, rc?)` digit strings. -/
def kvMatch2 (tag : Str) : Option (Str × Str × Option Str) :=
  match tag with
  | 'v' :: rest =>
    let d1 := rest.takeWhile isDigitCh
    if d1 = [] then none
    else
      match rest.drop d1.length with
      | '.' :: rest2 =>
        let d2 := rest2.takeWhile isDigitCh
        if d2 = [] then none
        else
          match rest2.drop d2.length with
          | '-' :: 'r' :: 'c' :: rest4 =>
            let d4 := rest4.takeWhile isDigitCh
            if d4 = [] then some (d1, d2, none) else some (d1, d2, some d4)
          | _ => some (d1, d2, none)
      | _ => none
  | _ => none

/-- Python `patchops.key_version`: the sort key tuple for a tag. -/
def key_version (tag : Str) : List PyV :=
  match kvMatch1 tag with
  | some (minor, patch, g4, g5) =>
    match g5 with
    | some rc => [.pin 2, .pin (digitsToNat minor), .pin (digitsToNat patch), .pbool false,
                  .pin (digitsToNat rc)]
    | none => [.pin 2, .pin (digitsToNat minor), .pin (digitsToNat patch), .pbool true,
               .pin (digitsToNat (g4.getD [] ))]
  | none =>
    match kvMatch2 tag with
    | some (major, minor, rc) =>
      match rc with
      | some n => [.pin (digitsToNat major), .pin (digitsToNat minor), .pin 0, .pbool false,
                   .pin (digitsToNat n)]
      | none => [.pin (digitsToNat major), .pin (digitsToNat minor), .pin 0, .pbool true,
                 .pstr []]
    | none => []

/-- The sort relation of `lines.sort(key=key_version)`. -/
def keyLeP (a b : Str) : Prop := pyCmpKey (key_version a) (key_version b) ≠ .gt

instance : DecidableRel keyLeP :=
  fun a b => inferInstanceAs (Decidable (pyCmpKey (key_version a) (key_version b) ≠ .gt))

/-- Python `lines.sort(key=key_version)`: a stable sort by the key order. -/
def pySortTags (l : List Str) : List Str := l.insertionSort keyLeP

/-- Python `re.search(r"v([0-9]+)\.([0-9]+)(|-rc([0-9]+))$", lasttag)`: the leftmost
position whose match extends to the end of the string; captures the raw digit
strings `(major, minor, rc?)`. -/
def searchVTag : Str → Option (Str × Str × Option Str)
  | [] => none
  | c :: rest => (matchVTagHere (c :: rest)).orElse (fun _ => searchVTag rest)
where
  matchVTagHere : Str → Option (Str × Str × Option Str)
    | 'v' :: rest =>
      let d1 := rest.takeWhile isDigitCh
      if d1 = [] then none
      else
        match rest.drop d1.length with
        | '.' :: rest2 =>
          let d2 := rest2.takeWhile isDigitCh
          if d2 = [] then none
          else
            match rest2.drop d2.length with
            | [] => some (d1, d2, none)
            | '-' :: 'r' :: 'c' :: rest4 =>
              let d4 := rest4.takeWhile isDigitCh
              if d4 ≠ [] ∧ rest4.drop d4.length = [] then some (d1, d2, some d4) else none
            | _ => none
        | _ => none
    | _ => none

/-- Decimal rendering of a natural number, Python `'%d' % n` for `n ≥ 0`. -/
def natToStr (n : Nat) : Str := Nat.toDigits 10 n

/-- Python `patchops.get_next_tag`, parametrised by the raw output of
`git tag -l 'v[0-9]*'` (the external collaborator).  Result: `none` models the
`IndexError` Python raises when the output is nonempty but contains no words;
`some none` is Python `None`; `some (some t)` is a returned tag string. -/
def get_next_tag (output : Str) : Option (Option Str) :=
  if output = [] then some none
  else
    let lines := pySplitWS output
    match (pySortTags lines).getLast? with
    | none => none
    | some lasttag =>
      match searchVTag lasttag with
      | none => some none
      | some (major, minor, rc) =>
        match rc with
        | none =>
          some (some (str "v" ++ major ++ str "." ++ natToStr (digitsToNat minor + 1) ++
                      str "-rc1"))
        | some rcd =>
          some (some (str "v" ++ major ++ str "." ++ natToStr (digitsToNat minor) ++
                      str " or v" ++ major ++ str "." ++ minor ++ str "-rc" ++
                      natToStr (digitsToNat rcd + 1) ++ str " (next release)"))

/-! ## Line splitting and the diff-start classifier -/

/-- Helper for `splitLines`: accumulate the current line (reversed); a final
`'\n'` produces no trailing empty line, matching Python `str.splitlines`. -/
def pySplitAux : Str → Str → List Str
  | acc, [] => [acc.reverse]
  | acc, c :: rest =>
    if c = '\n' then
      match rest with
      | [] => [acc.reverse]
      | _ :: _ => acc.reverse :: pySplitAux [] rest
    else pySplitAux (c :: acc) rest

/-- Python `str.splitlines()` (over `'\n'` boundaries). -/
def splitLines : Str → List Str
  | [] => []
  | cs => pySplitAux [] cs

/-- Join lines back, each with a trailing `'\n'` (the `ret += line + '\n'`
accumulation used by `Patch.header`, `Patch.body` and the mutators). -/
def renderLines (ls : List Str) : Str := (ls.map (· ++ ['\n'])).flatten

def isSpTab (c : Char) : Bool := c = ' ' || c = '\t'

/-- Python `[ \t][^ \t]` after a `---`/`***`/`Index:` marker. -/
def markerTail : Str → Bool
  | c1 :: c2 :: _ => isSpTab c1 && !isSpTab c2
  | _ => false

def isHexLower (c : Char) : Bool := isDigitCh c || ('a' ≤ c && c ≤ 'f')

/-- Regex `_PATCH_START_RE`:
`^(---|\*\*\*|Index:)[ \t][^ \t]|^diff -|^index [0-9a-f]{7}` (`re.match`). -/
def patchStart (line : Str) : Bool :=
  ((str "---").isPrefixOf line && markerTail (line.drop 3)) ||
  ((str "***").isPrefixOf line && markerTail (line.drop 3)) ||
  ((str "Index:").isPrefixOf line && markerTail (line.drop 6)) ||
  (str "diff -").isPrefixOf line ||
  ((str "index ").isPrefixOf line &&
    ((line.drop 6).take 7).length = 7 && ((line.drop 6).take 7).all isHexLower)

/-- The lines of `Patch.header()`: payload lines strictly before the first
diff-start line. -/
def headerLines (pl : List Str) : List Str := pl.takeWhile (fun l => !patchStart l)

/-- The lines of `Patch.body()`: from the first diff-start line to the end. -/
def bodyLines (pl : List Str) : List Str := pl.dropWhile (fun l => !patchStart l)

/-! ## `Patch.shrink_chunk` -/

/-- One hunk emission of `shrink_chunk`: the values of `start`, `end`, `added`
and `removed` at the moment the hunk text is appended (all four are
non-negative there, so they are recorded as `Nat`). -/
structure Hunk where
  start : Nat
  ende : Nat
  added : Nat
  removed : Nat
deriving DecidableEq

/-- The loop state of `shrink_chunk`; `hunks` records the emissions in order
(the Python code appends each hunk's text to `text` at emission time, so the
final `text` is the concatenation of the rendered `hunks`). -/
structure ShrinkState where
  hunks : List Hunk
  start : Int
  ende : Int
  added : Nat
  removed : Nat
  count : Nat
deriving DecidableEq

def shrinkInit : ShrinkState := ⟨[], -1, -1, 0, 0, 0⟩

/-- One iteration of the `for n, line in enumerate(lines)` loop of
`shrink_chunk` (the `debug` printing is elided; the `end >= len(lines)`
clamp is kept although `end = n < len(lines)` makes it unreachable). -/
def shrinkStep (len n : Nat) (line : Str) (s : ShrinkState) : ShrinkState :=
  let s1 :=
    if line.head? = some '-' then
      let st := if s.start < 0 then (if (n : Int) - 3 < 0 then 0 else (n : Int) - 3) else s.start
      { s with start := st, removed := s.removed + 1, count := 0 }
    else if line.head? = some '+' then
      let st := if s.start < 0 then (if (n : Int) - 3 < 0 then 0 else (n : Int) - 3) else s.start
      { s with start := st, added := s.added + 1, count := 0 }
    else
      let count := s.count + 1
      if s.start ≥ 0 ∧ s.ende < 0 ∧ (count > 3 ∨ n + 1 = len) then
        let e : Int := (n : Int)
        let e := if e ≥ (len : Int) then (len : Int) - 1 else e
        { s with count := count, ende := e }
      else { s with count := count }
  if s1.start ≥ 0 ∧ s1.ende ≥ 0 then
    { hunks := s1.hunks ++ [⟨s1.start.toNat, s1.ende.toNat, s1.added, s1.removed⟩],
      start := -1, ende := -1, added := 0, removed := 0, count := s1.count }
  else s1

def shrinkGo (len : Nat) : Nat → List Str → ShrinkState → ShrinkState
  | _, [], s => s
  | n, line :: rest, s => shrinkGo len (n + 1) rest (shrinkStep len n line s)

def shrinkRun (lines : List Str) : ShrinkState := shrinkGo lines.length 0 lines shrinkInit

/-- The hunks `shrink_chunk` emits for a chunk, in emission order. -/
def shrinkChunkHunks (chunk : Str) : List Hunk := (shrinkRun (splitLines chunk)).hunks

/-- Python `str(i)` for an int. -/
def intToStr (i : Int) : Str := if i < 0 then '-' :: natToStr i.natAbs else natToStr i.toNat

/-- Python `'\n'.join(...)`. -/
def joinNL (ls : List Str) : Str := (ls.intersperse ['\n']).flatten

/-- The text `shrink_chunk` appends for one emitted hunk:
`f'@@ -{start+1},{diff-added} +{start+1},{diff-removed} @@\n'` followed by
`'\n'.join(lines[start:end])` and a final newline. -/
def renderHunk (lines : List Str) (h : Hunk) : Str :=
  let diff : Int := (h.ende : Int) - (h.start : Int)
  str "@@ -" ++ intToStr ((h.start : Int) + 1) ++ str "," ++ intToStr (diff - (h.added : Int)) ++
    str " +" ++ intToStr ((h.start : Int) + 1) ++ str "," ++ intToStr (diff - (h.removed : Int)) ++
    str " @@" ++ ['\n'] ++ joinNL ((lines.drop h.start).take (h.ende - h.start)) ++ ['\n']

/-- Python `Patch.shrink_chunk`. -/
def shrink_chunk (chunk : Str) : Str :=
  let lines := splitLines chunk
  (((shrinkRun lines).hunks).map (renderHunk lines)).flatten

/-! ## `Patch.handle_merge` -/

/-- The loop of `Patch.handle_merge` over the body lines, with state
`(in_chunk, chunk, text)`.  Inside a combined chunk the code reads `line[1]`,
which raises `IndexError` on a line shorter than two characters: that case is
modelled as `none`.  After the loop the pending `chunk` is flushed (through
`shrink_chunk` when still in-chunk). -/
def handleMergeGo : Bool → Str → Str → List Str → Option Str
  | in_chunk, chunk, text, [] =>
    some (if in_chunk then text ++ shrink_chunk chunk else text ++ chunk)
  | in_chunk, chunk, text, line :: rest =>
    if patchStart line then
      if in_chunk then handleMergeGo false [] (text ++ shrink_chunk chunk) rest
      else handleMergeGo false (chunk ++ line ++ ['\n']) text rest
    else if (str "@@@").isPrefixOf line then
      handleMergeGo true [] (if in_chunk then text ++ shrink_chunk chunk else text ++ chunk) rest
    else if in_chunk then
      match line with
      | a :: b :: rest2 =>
        if b = ' ' ∨ b = '+' then handleMergeGo true (chunk ++ (a :: rest2) ++ ['\n']) text rest
        else handleMergeGo true chunk text rest
      | _ => none
    else handleMergeGo false (chunk ++ line ++ ['\n']) text rest

/-- Python `Patch.handle_merge` on the payload's line list: the processed body is
appended to the (unchanged) header region. -/
def handle_merge_lines (pl : List Str) : Option Str :=
  (handleMergeGo false [] [] (bodyLines pl)).map
    (fun text => renderLines (headerLines pl) ++ text)

/-- Python `Patch.handle_merge`: `none` models the `IndexError` raised on an
in-chunk line shorter than two characters; `some payload'` is the new
payload installed by `set_payload`. -/
def handle_merge (payload : Str) : Option Str := handle_merge_lines (splitLines payload)

/-- The per-line treatment of a combined-diff data line (length ≥ 2): keep
`line[0:1] + line[2:]` when the second column is ` ` or `+`, else drop. -/
def mergeKeep (line : Str) : Option Str :=
  match line with
  | a :: b :: rest => if b = ' ' ∨ b = '+' then some (a :: rest) else none
  | _ => none

/-! ## `Patch.add_diffstat` and `Patch.update_diffstat` -/

/-- Python `re.search(r'[0-9]+ files? changed, [0-9]+ insertion', line)`. -/
def diffstatNoteLine (line : Str) : Bool :=
  line.tails.any fun t =>
    let d1 := t.takeWhile isDigitCh
    d1 ≠ [] &&
      (let u := t.drop d1.length
       (str " file").isPrefixOf u &&
         (let u := u.drop 5
          let u := if u.head? = some 's' then u.drop 1 else u
          (str " changed, ").isPrefixOf u &&
            (let v := u.drop 10
             let d2 := v.takeWhile isDigitCh
             d2 ≠ [] && (str " insertion").isPrefixOf (v.drop d2.length))))

/-- Python `Patch.add_diffstat`, with the external diffstat generator abstracted as
`ds` (fed the body text, as `patchops.get_diffstat(self.body())` is).  The
`switched` flag in the source is never set, so the separator decision reduces
to whether some header line is exactly `---`. -/
def add_diffstat (ds : Str → Str) (payload : Str) : Str :=
  if (splitLines payload).any diffstatNoteLine then payload
  else
    let pl := splitLines payload
    let body := renderLines (bodyLines pl)
    let diffstat := ds body
    let need_sep := !((headerLines pl).any (fun l => l = str "---"))
    let diffstat := (if need_sep then str "---" ++ ['\n'] ++ diffstat
                     else ['\n'] ++ diffstat) ++ ['\n']
    let header := rstrip (renderLines (headerLines pl)) ++ ['\n']
    header ++ diffstat ++ body

/-- Python `re.search(r'#? .* \| ', line)`: an optional `#`, a space, anything, and
a ` | ` somewhere later. -/
def eatFileLine (line : Str) : Bool :=
  line.tails.any fun t =>
    let t' := if t.head? = some '#' then t.drop 1 else t
    match t' with
    | ' ' :: rest => strIn (str " | ") rest
    | _ => false

/-- Python `re.match(r'#? .* files? changed(, .* insertions?\(\+\))?(, .* deletions?\(-\))?', line)`:
anchored; the two optional groups always succeed, so the line must start with
an optional `#` then a space, with ` file changed` or ` files changed`
somewhere after. -/
def eatSummaryLine (line : Str) : Bool :=
  let t := if line.head? = some '#' then line.drop 1 else line
  match t with
  | ' ' :: rest =>
    rest.tails.any fun u =>
      (str " file changed").isPrefixOf u || (str " files changed").isPrefixOf u
  | _ => false

/-- The strip loop of `update_diffstat`: diffstat per-file lines are buffered
in `eat` and dropped when a summary line follows; a buffered run followed by a
regular line is flushed; a buffered run at the end of the header is dropped. -/
def eatLoop : Str → List Str → Str
  | _, [] => []
  | eat, line :: rest =>
    if eatFileLine line then eatLoop (eat ++ line ++ ['\n']) rest
    else if eatSummaryLine line then eatLoop [] rest
    else (eat ++ line ++ ['\n']) ++ eatLoop [] rest

/-- Python `Patch.update_diffstat`: strip any diffstat from the header, reassemble
`text + '\n' + body` as the payload, then `add_diffstat`. -/
def update_diffstat (ds : Str → Str) (payload : Str) : Str :=
  let pl := splitLines payload
  let text := eatLoop [] (headerLines pl)
  let body := renderLines (bodyLines pl)
  add_diffstat ds (text ++ ['\n'] ++ body)

/-! ## `Patch.add_signature` -/

/-- Regex atoms that can arise in `add_signature`'s interpolated patterns
`rf'{tag}.*{an_email}'`: a literal character or `.` (which in Python matches
any character except `'\n'`; the searched strings here are single lines, so
the newline exception never bites). -/
inductive RAtom where
  | lit (c : Char)
  | dot
deriving DecidableEq

/-- One quantified pattern piece: an atom taken exactly once, zero-or-more
times (`*`) or one-or-more times (`+`). -/
inductive RPiece where
  | once (a : RAtom)
  | star (a : RAtom)
  | plus (a : RAtom)
deriving DecidableEq

/-- The atom a single pattern character denotes. -/
def reAtomOf (c : Char) : RAtom := if c = '.' then RAtom.dot else RAtom.lit c

def atomMatch : RAtom → Char → Bool
  | RAtom.lit c, d => c == d
  | RAtom.dot, _ => true

/-- Regex constructs outside this model: `?`, grouping, classes, anchors,
alternation and escapes.  A pattern containing one of these (or a dangling
quantifier, which raises `re.error` in Python) fails to parse and the search
is modelled as finding nothing; the theorems below only engage emails whose
interpolation stays inside the model. -/
def reUnsupported (c : Char) : Bool :=
  c = '?' || c = '(' || c = ')' || c = '[' || c = ']' || c = '{' ||
    c = '}' || c = '|' || c = '^' || c = '$' || c = '\\'

/-- Characters the parser turns into a single piece that matches (at least)
itself: everything except quantifiers and the unsupported constructs.  `.` is
included: it parses to `dot`, which matches the literal `.` too. -/
def reSelfChar (c : Char) : Bool := !(c = '*' || c = '+' || reUnsupported c)

/-- Pattern parser for the interpolated search patterns: each character is an
atom (`.` or a literal), optionally quantified by a following `*` or `+`. -/
def reParse : Str → Option (List RPiece)
  | [] => some []
  | c :: rest =>
    if c = '*' || c = '+' || reUnsupported c then none
    else
      match rest with
      | [] => some [RPiece.once (reAtomOf c)]
      | q :: rest2 =>
        if q = '*' then (reParse rest2).map (fun ps => RPiece.star (reAtomOf c) :: ps)
        else if q = '+' then (reParse rest2).map (fun ps => RPiece.plus (reAtomOf c) :: ps)
        else (reParse (q :: rest2)).map (fun ps => RPiece.once (reAtomOf c) :: ps)

/-- Backtracking matcher: does the piece list match some prefix of `s`?  The
fuel argument only forces structural recursion: every call strictly decreases
`s.length + ps.length`, so any fuel above that bound is never exhausted and
the function computes the exact existential matching semantics of
`re.search` anchored at one position (greedy versus lazy repetition cannot
change the boolean outcome). -/
def matchHere : Nat → List RPiece → Str → Bool
  | 0, _, _ => false
  | _ + 1, [], _ => true
  | f + 1, RPiece.once a :: ps, s =>
    match s with
    | [] => false
    | c :: rest => atomMatch a c && matchHere f ps rest
  | f + 1, RPiece.star a :: ps, s =>
    matchHere f ps s ||
      (match s with
       | [] => false
       | c :: rest => atomMatch a c && matchHere f (RPiece.star a :: ps) rest)
  | f + 1, RPiece.plus a :: ps, s =>
    match s with
    | [] => false
    | c :: rest => atomMatch a c && matchHere f (RPiece.star a :: ps) rest

/-- Python `re.search` on a parsed pattern: a match may start at any
position of the line. -/
def reSearch (ps : List RPiece) (line : Str) : Bool :=
  line.tails.any (matchHere (line.length + ps.length + 1) ps)

/-- The interpolated pattern `rf'{tag}.*{an_email}'` of `add_signature`. -/
def sigPattern (tag email : Str) : Str := tag ++ str ".*" ++ email

/-- Python `re.search(rf'{tag}.*{an_email}', line)` for the literal tag names
`Acked-by` / `Signed-off-by`: the configured email is interpolated into the
pattern, so its characters are interpreted as regex syntax — for instance
`a+b@x.org` yields the piece `a+` and no longer matches the literal text
`a+b@x.org`. -/
def sigSearch (tag email line : Str) : Bool :=
  match reParse (sigPattern tag email) with
  | some ps => reSearch ps line
  | none => false

/-- The inserted tag line `f'{tag}: {config.name} <{config.email}>'`. -/
def sigTagLine (name email : Str) (sob : Bool) : Str :=
  (if sob then str "Signed-off-by" else str "Acked-by") ++ str ": " ++ name ++
    str " <" ++ email ++ str ">"

/-- The early-return test of `add_signature` on one payload line. -/
def sigCheckLine (emails : List Str) (l : Str) : Bool :=
  emails.any (fun e => sigSearch (str "Acked-by") e l || sigSearch (str "Signed-off-by") e l)

/-- The body-rebuild loop of `add_signature`, with accumulator `text` and the
previously seen line `last`; on each `---` line the tag line (preceded by a
blank separator unless `last` already contains `-by: `) is inserted first. -/
def sigLoop (name email : Str) (sob : Bool) : Str → Str → List Str → Str
  | text, _, [] => text
  | text, last, line :: rest =>
    if line = str "---" then
      let text := rstrip text ++ ['\n']
      let text := if !strIn (str "-by: ") last then text ++ ['\n'] else text
      let text := text ++ sigTagLine name email sob ++ ['\n']
      sigLoop name email sob (text ++ line ++ ['\n']) line rest
    else sigLoop name email sob (text ++ line ++ ['\n']) line rest

/-- Python `Patch.add_signature`: a no-op when some payload line carries an
`Acked-by`/`Signed-off-by` for one of the configured emails; otherwise the
payload is rebuilt with the tag line inserted before each `---` line. -/
def add_signature (emails : List Str) (name email : Str) (sob : Bool) (payload : Str) : Str :=
  if (splitLines payload).any (sigCheckLine emails)
  then payload
  else sigLoop name email sob [] [] (splitLines payload)

/-! ## `Patch.filter` and `Patch.file_in_path` -/

def pyNotSpace (c : Char) : Bool := !pyWS c

/-- Python `re.match(r'^\+\+\+ [^/]+/(\S+)', line)`: after `+++ `, at least one
non-`/` character, a `/`, then the captured maximal nonempty run of
non-whitespace characters. -/
def pppFilename (line : Str) : Option Str :=
  match line with
  | '+' :: '+' :: '+' :: ' ' :: rest =>
    let a := rest.takeWhile (· ≠ '/')
    if a = [] then none
    else
      match rest.drop a.length with
      | '/' :: rest2 =>
        let b := rest2.takeWhile pyNotSpace
        if b = [] then none else some b
      | _ => none
  | _ => none

/-- Python `Patch.file_in_path`: exact membership, or some entry that ends in `/`
and occurs as a substring (Python `in`) of the filename. -/
def file_in_path (filename : Str) (paths : List Str) : Bool :=
  filename ∈ paths || paths.any (fun f => f.getLast? = some '/' && strIn f filename)

/-- The loop state of `Patch.filter`. -/
structure FiltState where
  body : Str
  chunk : Str
  filename : Option Str
  isPartial : Bool
deriving DecidableEq

/-- One iteration of the `filter` loop: at a diff-start line the pending
chunk is retained or dropped according to its filename; every line is
appended to the current chunk; a `+++` match (re)sets the filename. -/
def filterStep (files : List Str) (exclude : Bool) (s : FiltState) (line : Str) : FiltState :=
  let s :=
    if patchStart line then
      match s.filename with
      | some fn =>
        if xor exclude (file_in_path fn files) then
          { s with body := s.body ++ s.chunk ++ ['\n'], chunk := [], filename := none }
        else { s with isPartial := true, chunk := [], filename := none }
      | none => { s with chunk := [] }
    else s
  let s := { s with chunk := s.chunk ++ line ++ ['\n'] }
  match pppFilename line with
  | some fn => { s with filename := some fn }
  | none => s

def filterRun (files : List Str) (exclude : Bool) (bodyL : List Str) : FiltState :=
  bodyL.foldl (filterStep files exclude) ⟨[], [], none, false⟩

/-- The body string `filter` installs: the loop result plus the final
pending-chunk check after the loop. -/
def filterBody (files : List Str) (exclude : Bool) (bodyL : List Str) : Str :=
  let s := filterRun files exclude bodyL
  match s.filename with
  | some fn =>
    if xor exclude (file_in_path fn files) then s.body ++ s.chunk ++ ['\n'] else s.body
  | none => s.body

/-- Result of `Patch.filter`: the payload after `set_payload` and
`update_diffstat`, whether the partial-header edits were taken, and whether
`EmptyCommitError` is raised at the very end. -/
structure FilterOut where
  payload : Str
  isPartial : Bool
  raisedEmpty : Bool
deriving DecidableEq

/-- Python `Patch.filter` (the `Git-commit`/`Patch-filtered` header edits concern
the message headers, not the payload; they are represented by the
`isPartial` flag).  The `EmptyCommitError` raise happens after the payload
has been fully updated, which the field order reflects. -/
def pyfilter (ds : Str → Str) (files : List Str) (exclude : Bool) (payload : Str) : FilterOut :=
  let pl := splitLines payload
  let body := filterBody files exclude (bodyLines pl)
  let payload1 := renderLines (headerLines pl) ++ body
  let payload2 := update_diffstat ds payload1
  ⟨payload2, (filterRun files exclude (bodyLines pl)).isPartial, body = []⟩

/-! # Theorems

## C9: `safe_filename` sanitization -/

/-! ## Predicates, refinement definitions and loop invariants used by the proofs -/

/-- One step of the `add_references` dedup loop. -/
def rrStep (acc : List Str) (ref : Str) : List Str :=
  if ref ∈ acc then acc.erase ref else acc

/-- The filename a per-file chunk is assigned: the capture of the last
`+++ <component>/<path>` line among the chunk's lines. -/
def lastPPP (c : List Str) : Option Str := (c.filterMap pppFilename).getLast?

/-- Reference retention predicate for one chunk (the refinement target):
a chunk with a filename is kept iff `exclude XOR file_in_path`, a chunk with
no `+++` match is dropped. -/
def retainChunk (files : List Str) (exclude : Bool) (c : List Str) : Bool :=
  match lastPPP c with
  | some fn => xor exclude (file_in_path fn files)
  | none => false

/-- Reference result body: concatenation, in order, of every retained chunk's
text followed by the extra `'\n'` the loop appends. -/
def joinRetained (files : List Str) (exclude : Bool) (CS : List (List Str)) : Str :=
  ((CS.filter (retainChunk files exclude)).map (fun c => renderLines c ++ ['\n'])).flatten

/-- A well-formed chunk: it starts with a diff-start line and contains no
other diff-start line. -/
def WFChunk (c : List Str) : Prop :=
  ∃ l₀ ls, c = l₀ :: ls ∧ patchStart l₀ = true ∧ ∀ l ∈ ls, patchStart l = false

/-- The pending-chunk decision made at each diff-start boundary (and, for the
final chunk, after the loop). -/
def boundaryStep (files : List Str) (exclude : Bool) (s : FiltState) : FiltState :=
  match s.filename with
  | some fn =>
    if xor exclude (file_in_path fn files) then
      { s with body := s.body ++ s.chunk ++ ['\n'], chunk := [], filename := none }
    else { s with isPartial := true, chunk := [], filename := none }
  | none => { s with chunk := [] }

/-- The body `filter` ends with, given the loop's final state. -/
def finalBody (files : List Str) (exclude : Bool) (s : FiltState) : Str :=
  match s.filename with
  | some fn =>
    if xor exclude (file_in_path fn files) then s.body ++ s.chunk ++ ['\n'] else s.body
  | none => s.body

/-- Well-formedness of one combined chunk `(marker, data)`. -/
def WFMerge (p : Str × List Str) : Prop :=
  (str "@@@").isPrefixOf p.1 = true ∧
    ∀ l ∈ p.2, patchStart l = false ∧ (str "@@@").isPrefixOf l = false ∧ 2 ≤ l.length

/-- The tag line occurs in `text` as a complete `'\n'`-delimited line that is
not the first line. -/
def hasTagLine (tl text : Str) : Prop :=
  ∃ A B, text = A ++ '\n' :: (tl ++ '\n' :: B)

/-- The payload ends with a newline character. -/
def endsNL (s : Str) : Prop := s.getLast? = some '\n'

/-- Empty, or ends with a newline. -/
def endsOk (s : Str) : Prop := s = [] ∨ s.getLast? = some '\n'

/-- Line `j` of `lines` exists and is a changed (`-` or `+`) line. -/
def chg (lines : List Str) (j : Nat) : Prop :=
  ∃ l, lines[j]? = some l ∧ (l.head? = some '-' ∨ l.head? = some '+')

/-- Number of `+` lines among `lines[a:b]`. -/
def countPlus (lines : List Str) (a b : Nat) : Nat :=
  ((lines.drop a).take (b - a)).countP (fun l => l.head? == some '+')

/-- Number of `-` lines among `lines[a:b]`. -/
def countMinus (lines : List Str) (a b : Nat) : Nat :=
  ((lines.drop a).take (b - a)).countP (fun l => l.head? == some '-')

/-- Everything `shrink_chunk` guarantees about one emitted hunk: the counter
fields match the emitted line range, and the range runs from three lines
before the first changed line of the run (clamped to 0) to `min (p+4)
(len-1)` where `p` is the run's last changed line. -/
def GoodHunk (lines : List Str) (h : Hunk) : Prop :=
  h.start ≤ h.ende ∧ h.ende < lines.length ∧
  h.added = countPlus lines h.start h.ende ∧
  h.removed = countMinus lines h.start h.ende ∧
  ∃ m p, chg lines m ∧ h.start ≤ m ∧ m < h.ende ∧
    (∀ j, h.start ≤ j → j < m → ¬ chg lines j) ∧
    (h.start : Int) = max ((m : Int) - 3) 0 ∧
    chg lines p ∧ h.start ≤ p ∧ p < h.ende ∧
    (∀ j, p < j → j < h.ende → ¬ chg lines j) ∧
    h.ende = min (p + 4) (lines.length - 1)

/-- Invariant while a candidate hunk is open (`start ≥ 0`). -/
def ShrinkRunInv (lines : List Str) (k : Nat) (s : ShrinkState) : Prop :=
  ∃ st m p : Nat, s.start = (st : Int) ∧ st ≤ k ∧
    chg lines m ∧ st ≤ m ∧ m < k ∧ (∀ j, st ≤ j → j < m → ¬ chg lines j) ∧
    (st : Int) = max ((m : Int) - 3) 0 ∧
    chg lines p ∧ st ≤ p ∧ p + s.count + 1 = k ∧
    (∀ j, p < j → j < k → ¬ chg lines j) ∧
    s.count ≤ 3 ∧
    s.added = countPlus lines st k ∧ s.removed = countMinus lines st k ∧
    (k = lines.length → chg lines (lines.length - 1))

/-- Invariant while no candidate hunk is open (`start = -1`). -/
def ShrinkIdleInv (lines : List Str) (k : Nat) (s : ShrinkState) : Prop :=
  s.added = 0 ∧ s.removed = 0 ∧
  (k = lines.length ∨ (∀ j, j < k → ¬ chg lines j) ∨
    (4 ≤ s.count ∧ ∀ j, j < k → k ≤ j + s.count → ¬ chg lines j))

/-- The full loop invariant of `shrink_chunk` after processing `k` lines. -/
def ShrinkInv (lines : List Str) (k : Nat) (s : ShrinkState) : Prop :=
  s.ende = -1 ∧ k ≤ lines.length ∧
  (∀ h ∈ s.hunks, GoodHunk lines h) ∧
  (∀ j, j < k → chg lines j →
    (∃ h ∈ s.hunks, h.start ≤ j ∧ j < h.ende) ∨ (0 ≤ s.start ∧ s.start ≤ (j : Int))) ∧
  (0 ≤ s.start → ShrinkRunInv lines k s) ∧
  (s.start < 0 → ShrinkIdleInv lines k s)

lemma mem_sfSubst {c : Char} {cs : Str} (h : c ∈ sfSubst cs) : sfKeep c = true ∨ c = '-' := by
  simp only [sfSubst, List.mem_map] at h
  obtain ⟨a, -, rfl⟩ := h
  by_cases ha : sfKeep a = true <;> simp [ha]

lemma mem_collapseRuns {t c : Char} : ∀ {cs : Str}, c ∈ collapseRuns t cs → c ∈ cs
  | [], h => h
  | [_], h => h
  | a :: a' :: cs, h => by
    rw [collapseRuns] at h
    split at h
    · exact List.mem_cons_of_mem _ (mem_collapseRuns h)
    · rcases List.mem_cons.mp h with rfl | h
      · exact List.mem_cons_self _ _
      · exact List.mem_cons_of_mem _ (mem_collapseRuns h)

lemma head?_collapseRuns (t x : Char) : ∀ (xs : Str), (collapseRuns t (x :: xs)).head? = some x
  | [] => rfl
  | x' :: xs => by
    rw [collapseRuns]
    split
    · next h => rw [head?_collapseRuns t x' xs, h.1, h.2]
    · rfl

lemma chain'_collapseRuns {r : Char → Char → Prop} {t : Char} :
    ∀ {cs : Str}, List.Chain' r cs → List.Chain' r (collapseRuns t cs)
  | [], h => h
  | [_], h => h
  | a :: a' :: cs, h => by
    rw [collapseRuns]
    have h' := (List.chain'_cons'.mp h).2
    split
    · exact chain'_collapseRuns h'
    · refine List.chain'_cons'.mpr ⟨?_, chain'_collapseRuns h'⟩
      intro y hy
      rw [head?_collapseRuns] at hy
      cases hy
      exact (List.chain'_cons.mp h).1

lemma collapseRuns_noDouble (t : Char) :
    ∀ (cs : Str), List.Chain' (fun a b => ¬(a = t ∧ b = t)) (collapseRuns t cs)
  | [] => List.chain'_nil
  | [c] => List.chain'_singleton c
  | a :: a' :: cs => by
    rw [collapseRuns]
    split
    · exact collapseRuns_noDouble t (a' :: cs)
    · next h =>
      refine List.chain'_cons'.mpr ⟨?_, collapseRuns_noDouble t (a' :: cs)⟩
      intro y hy
      rw [head?_collapseRuns] at hy
      cases hy
      exact h

lemma chain'_of_sub {α : Type} {R : α → α → Prop} {l₁ l₂ : List α}
    (h2 : List.Chain' R l₂) (h1 : l₁ <:+: l₂) : List.Chain' R l₁ :=
  List.Chain'.infix h2 h1

lemma pyStrip_between (p : Char → Bool) (cs : Str) : pyStrip p cs <:+: cs := by
  have h1 : List.rdropWhile p (cs.dropWhile p) <+: cs.dropWhile p := List.rdropWhile_prefix _ _
  exact List.infix_iff_prefix_suffix.mpr ⟨_, h1, List.dropWhile_suffix p⟩

lemma pyStrip_head (p : Char → Bool) (cs : Str) {c : Char}
    (h : (pyStrip p cs).head? = some c) : p c = false := by
  have hpre : List.rdropWhile p (cs.dropWhile p) <+: cs.dropWhile p := List.rdropWhile_prefix _ _
  have hne : pyStrip p cs ≠ [] := by intro hnil; rw [hnil] at h; cases h
  have hne' : cs.dropWhile p ≠ [] := by
    intro hnil
    exact hne (List.prefix_nil.mp (hnil ▸ hpre))
  have hh : (pyStrip p cs).head hne = (cs.dropWhile p).head hne' := List.IsPrefix.head hpre hne
  have : (pyStrip p cs).head? = some ((cs.dropWhile p).head hne') := by
    rw [← hh, List.head?_eq_head]
  rw [this] at h
  cases h
  exact List.head_dropWhile_not p cs hne'

lemma pyStrip_getLast (p : Char → Bool) (cs : Str) {c : Char}
    (h : (pyStrip p cs).getLast? = some c) : ¬ p c = true := by
  have hne : pyStrip p cs ≠ [] := by intro hnil; rw [hnil] at h; cases h
  have hl := List.rdropWhile_last_not p (cs.dropWhile p) hne
  have : (pyStrip p cs).getLast? = some ((pyStrip p cs).getLast hne) :=
    List.getLast?_eq_getLast _ hne
  rw [this] at h
  cases h
  exact hl

lemma noDouble_not_within {t : Char} {cs : Str}
    (h : List.Chain' (fun a b => ¬(a = t ∧ b = t)) cs) : ¬ [t, t] <:+: cs := by
  intro hinf
  have := h.infix hinf
  exact (List.chain'_cons.mp this).1 ⟨rfl, rfl⟩

/-- C9 (amended): for every subject, `safe_filename` yields a string whose
characters all lie in `[A-Za-z0-9_.]` **or are `'-'`** (the replacement
character, which the claim's character class omits), with no `--` or `..`
substring and no leading or trailing `-`/`.`; on the claim's concrete input
the leading `Re: [PATCH v2]` markers are stripped and the result is
`Fix-foo-bar.c`. -/
theorem C9_safe_filename_sanitized :
    (∀ name : Str,
      (∀ c ∈ safe_filename name, sfKeep c = true ∨ c = '-') ∧
      (¬ ['-', '-'] <:+: safe_filename name) ∧
      (¬ ['.', '.'] <:+: safe_filename name) ∧
      (∀ c, (safe_filename name).head? = some c → ¬(c = '-' ∨ c = '.')) ∧
      (∀ c, (safe_filename name).getLast? = some c → ¬(c = '-' ∨ c = '.'))) ∧
    safe_filename (str "Re: [PATCH v2] Fix foo/bar.c") = str "Fix-foo-bar.c" := by
  refine ⟨fun name => ?_, by decide⟩
  by_cases hname : name = []
  · subst hname
    refine ⟨by simp [safe_filename], ?_, ?_, by simp [safe_filename], by simp [safe_filename]⟩ <;>
      simp [safe_filename]
  · rw [safe_filename, if_neg hname]
    set base := collapseRuns '.' (collapseRuns '-' (sfSubst (sfStripPrefix name.length name)))
      with hbase
    set p : Char → Bool := fun c => c = '-' || c = '.' || c = ' ' with hp
    refine ⟨?_, ?_, ?_, ?_, ?_⟩
    · intro c hc
      have h1 : c ∈ base := ((pyStrip_between p base).sublist).mem hc
      have h2 : c ∈ collapseRuns '-' (sfSubst (sfStripPrefix name.length name)) :=
        mem_collapseRuns h1
      exact mem_sfSubst (mem_collapseRuns h2)
    · refine noDouble_not_within (chain'_of_sub ?_ (pyStrip_between p base))
      exact chain'_collapseRuns (collapseRuns_noDouble '-' _)
    · exact noDouble_not_within (chain'_of_sub (collapseRuns_noDouble '.' _)
        (pyStrip_between p base))
    · intro c hc
      have := pyStrip_head p base hc
      rw [hp] at this
      simp only [Bool.or_eq_false_iff, decide_eq_false_iff_not] at this
      rintro (rfl | rfl)
      · exact this.1.1 rfl
      · exact this.1.2 rfl
    · intro c hc
      have := pyStrip_getLast p base hc
      rw [hp] at this
      simp only [Bool.or_eq_true, decide_eq_true_eq, not_or] at this
      rintro (rfl | rfl)
      · exact this.1.1 rfl
      · exact this.1.2 rfl

/-- C9 witness: the amended theorem applied at the claim's concrete subject,
with the membership hypothesis discharged on the character `F`. -/
theorem C9_witness : sfKeep 'F' = true ∨ 'F' = '-' :=
  (C9_safe_filename_sanitized.1 (str "Re: [PATCH v2] Fix foo/bar.c")).1 'F' (by decide)

/-- C9 counterexample: the claim says the result contains only characters
from `[A-Za-z0-9_.]`, but on the claim's own example the result is
`Fix-foo-bar.c`, which contains `'-'`, a character outside that class. -/
theorem C9_counterexample :
    safe_filename (str "Re: [PATCH v2] Fix foo/bar.c") = str "Fix-foo-bar.c" ∧
    '-' ∈ safe_filename (str "Re: [PATCH v2] Fix foo/bar.c") ∧
    sfKeep '-' = false := by decide

/-! ## C6: `add_references` sorted merge -/

lemma pyLt_trichotomy : ∀ (a b : Str), pyLt a b = true ∨ pyLt b a = true ∨ a = b
  | [], [] => Or.inr (Or.inr rfl)
  | [], _ :: _ => Or.inl rfl
  | _ :: _, [] => Or.inr (Or.inl rfl)
  | c :: cs, d :: ds => by
    by_cases hcd : c = d
    · subst hcd
      rcases pyLt_trichotomy cs ds with h | h | h
      · exact Or.inl (by simp [pyLt, h])
      · exact Or.inr (Or.inl (by simp [pyLt, h]))
      · exact Or.inr (Or.inr (by rw [h]))
    · rcases lt_trichotomy c d with h | h | h
      · exact Or.inl (by simp [pyLt, hcd]; exact h)
      · exact absurd h hcd
      · refine Or.inr (Or.inl ?_)
        simp [pyLt, Ne.symm hcd]
        exact h

lemma pyLt_trans : ∀ (a b c : Str), pyLt a b = true → pyLt b c = true → pyLt a c = true := by
  intro a
  induction a with
  | nil =>
    intro b c h1 h2
    cases b with
    | nil => simp [pyLt] at h1
    | cons y ys =>
      cases c with
      | nil => simp [pyLt] at h2
      | cons z zs => simp [pyLt]
  | cons x xs ih =>
    intro b c h1 h2
    cases b with
    | nil => simp [pyLt] at h1
    | cons y ys =>
      cases c with
      | nil => simp [pyLt] at h2
      | cons z zs =>
        rw [pyLt] at h1 h2 ⊢
        by_cases hxy : x = y <;> by_cases hyz : y = z
        · subst hxy
          subst hyz
          rw [if_pos rfl] at h1 h2 ⊢
          exact ih ys zs h1 h2
        · subst hxy
          rw [if_neg hyz] at h2 ⊢
          exact h2
        · subst hyz
          rw [if_neg hxy] at h1 ⊢
          exact h1
        · rw [if_neg hxy] at h1
          rw [if_neg hyz] at h2
          have hac : x < z := lt_trans (of_decide_eq_true h1) (of_decide_eq_true h2)
          have hne : x ≠ z := ne_of_lt hac
          rw [if_neg hne]
          exact decide_eq_true hac

instance : IsTotal Str pyLeP where
  total a b := by
    unfold pyLeP pyLe
    rcases pyLt_trichotomy a b with h | h | h
    · exact Or.inl (by simp [h])
    · exact Or.inr (by simp [h])
    · exact Or.inl (by simp [h])

instance : IsTrans Str pyLeP where
  trans a b c h1 h2 := by
    unfold pyLeP pyLe at h1 h2 ⊢
    rcases Bool.or_eq_true_iff.mp h1 with h1 | h1 <;>
      rcases Bool.or_eq_true_iff.mp h2 with h2 | h2
    · simp [pyLt_trans a b c h1 h2]
    · have : b = c := by simpa using h2
      subst this
      simp [h1]
    · have : a = b := by simpa using h1
      subst this
      simp [h2]
    · have hab : a = b := by simpa using h1
      have hbc : b = c := by simpa using h2
      simp [hab, hbc]

lemma pySort_sorted (l : List Str) : List.Sorted pyLeP (pySort l) :=
  List.sorted_insertionSort pyLeP l

lemma pySort_perm (l : List Str) : (pySort l).Perm l := List.perm_insertionSort pyLeP l

lemma removeRefs_eq_foldl (refs newrefs : List Str) :
    removeRefs refs newrefs = refs.foldl rrStep newrefs := rfl

lemma rrStep_subset (acc : List Str) (ref : Str) : rrStep acc ref ⊆ acc := by
  unfold rrStep
  split
  · exact List.erase_subset _ _
  · exact fun _ h => h

lemma rrStep_nodup {acc : List Str} (h : acc.Nodup) (ref : Str) : (rrStep acc ref).Nodup := by
  unfold rrStep
  split
  · exact h.erase ref
  · exact h

lemma foldl_rrStep_subset : ∀ (refs : List Str) (nr : List Str), refs.foldl rrStep nr ⊆ nr
  | [], _ => fun _ h => h
  | r :: rest, nr => fun _ ht =>
    rrStep_subset nr r (foldl_rrStep_subset rest (rrStep nr r) ht)

lemma removeRefs_subset (refs nr : List Str) : removeRefs refs nr ⊆ nr :=
  foldl_rrStep_subset refs nr

lemma removeRefs_nodup : ∀ (refs : List Str) {nr : List Str}, nr.Nodup → (removeRefs refs nr).Nodup
  | [], _, h => h
  | _ :: rest, _, h => removeRefs_nodup rest (rrStep_nodup h _)

lemma not_mem_removeRefs :
    ∀ (refs : List Str) {nr : List Str} {t : Str}, nr.Nodup → t ∈ refs →
      t ∉ removeRefs refs nr
  | r :: rest, nr, t, hnod, ht => by
    rcases List.mem_cons.mp ht with rfl | ht'
    · intro hmem
      have h1 : t ∈ rrStep nr t := foldl_rrStep_subset rest (rrStep nr t) hmem
      unfold rrStep at h1
      split at h1
      · exact hnod.not_mem_erase h1
      · next hni => exact hni h1
    · exact not_mem_removeRefs rest (rrStep_nodup hnod r) ht'

lemma mem_removeRefs_of_not_mem :
    ∀ (refs : List Str) {nr : List Str} {t : Str}, t ∉ refs →
      (t ∈ removeRefs refs nr ↔ t ∈ nr)
  | [], _, _, _ => Iff.rfl
  | r :: rest, nr, t, ht => by
    have htr : t ≠ r := fun h => ht (h ▸ List.mem_cons_self r rest)
    have htrest : t ∉ rest := fun h => ht (List.mem_cons_of_mem r h)
    rw [removeRefs_eq_foldl, List.foldl_cons, ← removeRefs_eq_foldl,
      mem_removeRefs_of_not_mem rest htrest]
    unfold rrStep
    split
    · exact List.mem_erase_of_ne htr
    · exact Iff.rfl

/-- C6 (amended): whenever the existing `References` tokens are pairwise
distinct and `new_refs` has no duplicates, the header value `add_references`
installs is the space-join of a token list that is sorted in Python's
lexicographic string order, has no duplicates, and whose members are exactly
the old tokens together with the `new_refs` entries.  (With duplicated
inputs the dedup loop removes only one occurrence per old token, so the
output can repeat tokens.) -/
theorem C6_add_references_sorted_merge (existing : Option Str) (newrefs : List Str)
    (hex : ∀ e, existing = some e → (pySplitWS e).Nodup) (hnew : newrefs.Nodup) :
    List.Sorted pyLeP (add_references_list existing newrefs) ∧
    (add_references_list existing newrefs).Nodup ∧
    (∀ t, t ∈ add_references_list existing newrefs ↔
      (∃ e, existing = some e ∧ t ∈ pySplitWS e) ∨ t ∈ newrefs) ∧
    add_references existing newrefs = joinSpace (add_references_list existing newrefs) := by
  cases existing with
  | none =>
    refine ⟨pySort_sorted _, ((pySort_perm _).nodup_iff).mpr hnew, ?_, rfl⟩
    intro t
    rw [add_references_list, (pySort_perm _).mem_iff]
    simp
  | some e =>
    have hrefs : (pySplitWS e).Nodup := hex e rfl
    have hnr : (removeRefs (pySplitWS e) newrefs).Nodup := removeRefs_nodup _ hnew
    have hdisj : (pySplitWS e).Disjoint (removeRefs (pySplitWS e) newrefs) :=
      List.disjoint_left.mpr (fun _ ht => not_mem_removeRefs _ hnew ht)
    refine ⟨pySort_sorted _, ?_, ?_, rfl⟩
    · exact ((pySort_perm _).nodup_iff).mpr (hrefs.append hnr hdisj)
    · intro t
      rw [add_references_list, (pySort_perm _).mem_iff, List.mem_append]
      constructor
      · rintro (h | h)
        · exact Or.inl ⟨e, rfl, h⟩
        · exact Or.inr (removeRefs_subset _ _ h)
      · rintro (⟨e', he', h⟩ | h)
        · cases he'
          exact Or.inl h
        · by_cases hmem : t ∈ pySplitWS e
          · exact Or.inl hmem
          · exact Or.inr ((mem_removeRefs_of_not_mem _ hmem).mpr h)

/-- C6 witness: the amended theorem at the claim's concrete example
(`References: c`, `new_refs = ["b","a"]`), together with the claimed
concrete output `a b c`. -/
theorem C6_witness :
    List.Sorted pyLeP (add_references_list (some (str "c")) [str "b", str "a"]) ∧
    add_references (some (str "c")) [str "b", str "a"] = str "a b c" :=
  ⟨(C6_add_references_sorted_merge (some (str "c")) [str "b", str "a"]
      (fun e he => by cases he; decide) (by decide)).1,
   by decide⟩

/-- C6 counterexample: with `new_refs = ["c","c"]` on an existing
`References: c`, the dedup loop removes only one duplicate and the resulting
header value `c c` repeats a token, contradicting the claim's universally
quantified no-duplicates/union statement. -/
theorem C6_counterexample :
    add_references (some (str "c")) [str "c", str "c"] = str "c c" ∧
    ¬ (add_references_list (some (str "c")) [str "c", str "c"]).Nodup := by
  refine ⟨by decide, ?_⟩
  intro h
  have : add_references_list (some (str "c")) [str "c", str "c"] = [str "c", str "c"] := by decide
  rw [this] at h
  simp at h

/-! ## C7: next-tag inference -/

/-- C7 (amended): with existing tags `v6.1` and `v6.1-rc1..v6.1-rc3`, the
version-greatest tag under `key_version` is the release `v6.1` (a release
sorts above its rc tags), so `get_next_tag` takes the post-release branch and
yields `v6.2-rc1` — not `v6.1-rc4`.  The mid-rc behaviour the claim describes
occurs only when no release tag tops the list: with tags `v6.1-rc1..v6.1-rc3`
the result names both the eventual release and the next rc,
`"v6.1 or v6.1-rc4 (next release)"`.  When the greatest tag has no `-rc`
suffix the result is `v<major>.<minor+1>-rc1`. -/
theorem C7_get_next_tag_amended :
    (pySortTags [str "v6.1", str "v6.1-rc1", str "v6.1-rc2", str "v6.1-rc3"]).getLast? =
        some (str "v6.1") ∧
    get_next_tag (str "v6.1 v6.1-rc1 v6.1-rc2 v6.1-rc3") = some (some (str "v6.2-rc1")) ∧
    get_next_tag (str "v6.1-rc1 v6.1-rc2 v6.1-rc3") =
        some (some (str "v6.1 or v6.1-rc4 (next release)")) ∧
    get_next_tag (str "v6.0 v6.1") = some (some (str "v6.2-rc1")) := by
  decide

/-- C7 counterexample: on the claim's scenario (existing tags `v6.1`,
`v6.1-rc1..v6.1-rc3`) the computation returns `v6.2-rc1`, not the claimed
`v6.1-rc4`. -/
theorem C7_counterexample :
    get_next_tag (str "v6.1 v6.1-rc1 v6.1-rc2 v6.1-rc3") = some (some (str "v6.2-rc1")) ∧
    some (some (str "v6.1-rc4")) ≠ some (some (str "v6.2-rc1")) := by
  decide

/-! ## C2 / C5: the file filter -/

lemma filterBody_eq_finalBody (files : List Str) (exclude : Bool) (bl : List Str) :
    filterBody files exclude bl = finalBody files exclude (filterRun files exclude bl) := rfl

lemma boundaryStep_body (files : List Str) (exclude : Bool) (s : FiltState) :
    (boundaryStep files exclude s).body = finalBody files exclude s := by
  unfold boundaryStep finalBody
  cases s.filename with
  | none => rfl
  | some fn => rw [apply_ite FiltState.body]

lemma boundaryStep_filename (files : List Str) (exclude : Bool) (s : FiltState) :
    (boundaryStep files exclude s).filename = none := by
  unfold boundaryStep
  cases s.filename with
  | none => rfl
  | some fn => rw [apply_ite FiltState.filename, ite_self]

lemma boundaryStep_chunk (files : List Str) (exclude : Bool) (s : FiltState) :
    (boundaryStep files exclude s).chunk = [] := by
  unfold boundaryStep
  cases s.filename with
  | none => rfl
  | some fn => rw [apply_ite FiltState.chunk, ite_self]

lemma filterStep_nonstart {files : List Str} {exclude : Bool} {s : FiltState} {l : Str}
    (h : patchStart l = false) :
    filterStep files exclude s l =
      { body := s.body, chunk := s.chunk ++ l ++ ['\n'],
        filename := (pppFilename l).or s.filename, isPartial := s.isPartial } := by
  unfold filterStep
  rw [h]
  cases hp : pppFilename l <;> simp [hp, Option.or]

lemma filterStep_start {files : List Str} {exclude : Bool} {s : FiltState} {l : Str}
    (h : patchStart l = true) (hppp : pppFilename l = none) :
    filterStep files exclude s l =
      { body := (boundaryStep files exclude s).body, chunk := l ++ ['\n'],
        filename := none, isPartial := (boundaryStep files exclude s).isPartial } := by
  cases hf : s.filename with
  | none => simp [filterStep, boundaryStep, h, hppp, hf]
  | some fn =>
    by_cases hx : xor exclude (file_in_path fn files) = true
    · simp [filterStep, boundaryStep, h, hppp, hf, hx]
    · simp [filterStep, boundaryStep, h, hppp, hf, hx]

lemma renderLines_cons (l : Str) (ls : List Str) :
    renderLines (l :: ls) = l ++ ['\n'] ++ renderLines ls := by
  simp [renderLines]

lemma lastPPP_cons (l : Str) (ls : List Str) :
    lastPPP (l :: ls) = (lastPPP ls).or (pppFilename l) := by
  unfold lastPPP
  rw [List.filterMap_cons]
  cases pppFilename l with
  | none => rw [Option.or_none]
  | some fn =>
    show (([fn] ++ ls.filterMap pppFilename).getLast? = _)
    rw [List.getLast?_append]
    rfl

lemma foldl_filterStep_nonstart (files : List Str) (exclude : Bool) :
    ∀ (ls : List Str) (s : FiltState), (∀ l ∈ ls, patchStart l = false) →
      ls.foldl (filterStep files exclude) s =
        { body := s.body, chunk := s.chunk ++ renderLines ls,
          filename := (lastPPP ls).or s.filename, isPartial := s.isPartial }
  | [], s, _ => by simp [renderLines, lastPPP, Option.or]
  | l :: ls, s, h => by
    rw [List.foldl_cons, filterStep_nonstart (h l (List.mem_cons_self l ls)),
      foldl_filterStep_nonstart files exclude ls _ (fun x hx => h x (List.mem_cons_of_mem l hx))]
    simp only [renderLines_cons, lastPPP_cons]
    refine congrArg₂ (fun (a : Str) (b : Option Str) =>
      FiltState.mk s.body a b s.isPartial) ?_ ?_
    · simp [List.append_assoc]
    · cases hl : lastPPP ls <;> cases hp : pppFilename l <;> simp [Option.or]

lemma foldl_filterStep_chunk (files : List Str) (exclude : Bool) {l₀ : Str} {ls : List Str}
    (s : FiltState) (h₀ : patchStart l₀ = true) (hppp : pppFilename l₀ = none)
    (hls : ∀ l ∈ ls, patchStart l = false) :
    (l₀ :: ls).foldl (filterStep files exclude) s =
      { body := (boundaryStep files exclude s).body, chunk := renderLines (l₀ :: ls),
        filename := lastPPP (l₀ :: ls),
        isPartial := (boundaryStep files exclude s).isPartial } := by
  rw [List.foldl_cons, filterStep_start h₀ hppp,
    foldl_filterStep_nonstart files exclude ls _ hls]
  simp only [renderLines_cons, lastPPP_cons, hppp]

lemma patchStart_pppFilename_none {l : Str} (h : patchStart l = true) : pppFilename l = none := by
  unfold patchStart at h
  simp only [Bool.or_eq_true, Bool.and_eq_true] at h
  rcases h with ((((⟨h1, -⟩ | ⟨h1, -⟩) | ⟨h1, -⟩) | h1) | ⟨⟨h1, -⟩, -⟩) <;>
    obtain ⟨t, rfl⟩ := List.isPrefixOf_iff_prefix.mp h1 <;> rfl

lemma filter_foldl_chunks (files : List Str) (exclude : Bool) :
    ∀ (CS : List (List Str)) (s : FiltState), (∀ c ∈ CS, WFChunk c) →
      finalBody files exclude (CS.flatten.foldl (filterStep files exclude) s) =
        finalBody files exclude s ++ joinRetained files exclude CS
  | [], s, _ => by simp [joinRetained]
  | c :: CS, s, hwf => by
    obtain ⟨l₀, ls, rfl, h₀, hls⟩ := hwf c (List.mem_cons_self c CS)
    rw [List.flatten_cons, List.foldl_append,
      foldl_filterStep_chunk files exclude s h₀ (patchStart_pppFilename_none h₀) hls,
      filter_foldl_chunks files exclude CS _ (fun d hd => hwf d (List.mem_cons_of_mem _ hd))]
    have hcontrib :
        finalBody files exclude
          { body := (boundaryStep files exclude s).body, chunk := renderLines (l₀ :: ls),
            filename := lastPPP (l₀ :: ls),
            isPartial := (boundaryStep files exclude s).isPartial } =
          finalBody files exclude s ++
            (if retainChunk files exclude (l₀ :: ls) then renderLines (l₀ :: ls) ++ ['\n']
             else []) := by
      cases hf : lastPPP (l₀ :: ls) with
      | none =>
        simp [finalBody, retainChunk, hf, boundaryStep_body files exclude s]
      | some fn =>
        by_cases hx : xor exclude (file_in_path fn files) = true
        · simp [finalBody, retainChunk, hf, hx, boundaryStep_body files exclude s,
            List.append_assoc]
        · simp [finalBody, retainChunk, hf, hx, boundaryStep_body files exclude s]
    rw [hcontrib, List.append_assoc]
    congr 1
    simp only [joinRetained, List.filter_cons]
    by_cases hr : retainChunk files exclude (l₀ :: ls) = true
    · simp [hr]
    · simp only [Bool.not_eq_true] at hr
      simp [hr]

/-- The loop on a well-formed chunk decomposition computes exactly the
reference retained-chunk concatenation. -/
lemma filterBody_eq_joinRetained (files : List Str) (exclude : Bool) (CS : List (List Str))
    (hwf : ∀ c ∈ CS, WFChunk c) :
    filterBody files exclude CS.flatten = joinRetained files exclude CS := by
  rw [filterBody_eq_finalBody]
  have h := filter_foldl_chunks files exclude CS ⟨[], [], none, false⟩ hwf
  rw [filterRun]
  rw [h]
  rfl

lemma strIn_iff_middle {p h : Str} : strIn p h = true ↔ p <:+: h := by
  unfold strIn
  rw [List.any_eq_true]
  constructor
  · rintro ⟨t, ht, hp⟩
    exact List.infix_iff_prefix_suffix.mpr
      ⟨t, List.isPrefixOf_iff_prefix.mp hp, (List.mem_tails t h).mp ht⟩
  · intro hinf
    obtain ⟨t, hp, ht⟩ := List.infix_iff_prefix_suffix.mp hinf
    exact ⟨t, (List.mem_tails t h).mpr ht, List.isPrefixOf_iff_prefix.mpr hp⟩

lemma file_in_path_iff (fn : Str) (files : List Str) :
    file_in_path fn files = true ↔
      fn ∈ files ∨ ∃ f ∈ files, f.getLast? = some '/' ∧ f <:+: fn := by
  unfold file_in_path
  simp [List.any_eq_true, strIn_iff_middle]

/-- C2 (amended): on a body made of well-formed per-file chunks, the filter
retains exactly the chunks whose assigned filename `fn` satisfies
`exclude XOR (fn ∈ files ∨ some entry of files that ends in '/' occurs as a
substring of fn)`.  Python's `f in filename` is a *substring* test, so a
trailing-slash entry matches anywhere in the filename, not only as a
prefix. -/
theorem C2_filter_retention (files : List Str) (exclude : Bool) (CS : List (List Str))
    (hwf : ∀ c ∈ CS, WFChunk c) :
    filterBody files exclude CS.flatten = joinRetained files exclude CS ∧
    (∀ fn, file_in_path fn files = true ↔
      fn ∈ files ∨ ∃ f ∈ files, f.getLast? = some '/' ∧ f <:+: fn) ∧
    (∀ c fn, lastPPP c = some fn →
      (retainChunk files exclude c = true ↔
        xor exclude (decide (fn ∈ files) ||
          files.any (fun f => f.getLast? = some '/' && strIn f fn)) = true)) := by
  refine ⟨filterBody_eq_joinRetained files exclude CS hwf, fun fn => file_in_path_iff fn files, ?_⟩
  intro c fn hfn
  unfold retainChunk
  rw [hfn]
  rfl

/-- C2 witness: the amended theorem at a concrete two-chunk body, with the
filter keeping exactly the `b.c` chunk. -/
theorem C2_witness :
    filterBody [str "b.c"] false
        [str "--- a/a.c", str "+++ b/a.c", str "-x", str "--- a/b.c", str "+++ b/b.c",
         str "+y"] =
      joinRetained [str "b.c"] false
        [[str "--- a/a.c", str "+++ b/a.c", str "-x"],
         [str "--- a/b.c", str "+++ b/b.c", str "+y"]] := by
  have h := C2_filter_retention [str "b.c"] false
    [[str "--- a/a.c", str "+++ b/a.c", str "-x"],
     [str "--- a/b.c", str "+++ b/b.c", str "+y"]]
    (by
      intro c hc
      rcases List.mem_cons.mp hc with rfl | hc
      · exact ⟨_, _, rfl, by decide, by decide⟩
      · rcases List.mem_cons.mp hc with rfl | hc
        · exact ⟨_, _, rfl, by decide, by decide⟩
        · cases hc)
  exact h.1

/-- C2 counterexample: with `files = ["net/"]` and `exclude = False`, the
chunk for `drivers/net/foo.c` is retained because `"net/"` occurs as an
interior substring of the filename, although `"net/"` is not a prefix of it
and the filename is not a member of the list — the claim says such a chunk
must be dropped. -/
theorem C2_counterexample :
    file_in_path (str "drivers/net/foo.c") [str "net/"] = true ∧
    str "drivers/net/foo.c" ∉ [str "net/"] ∧
    ¬ str "net/" <+: str "drivers/net/foo.c" ∧
    filterBody [str "net/"] false
        [str "--- a/drivers/net/foo.c", str "+++ b/drivers/net/foo.c", str "-x", str "+y"] =
      str "--- a/drivers/net/foo.c\n+++ b/drivers/net/foo.c\n-x\n+y\n\n" := by
  decide

lemma joinRetained_eq_nil {files : List Str} {exclude : Bool} {CS : List (List Str)} :
    joinRetained files exclude CS = [] ↔ ∀ c ∈ CS, retainChunk files exclude c = false := by
  unfold joinRetained
  rw [List.flatten_eq_nil_iff]
  constructor
  · intro h c hc
    by_contra hr
    rw [Bool.not_eq_false] at hr
    have hmem : renderLines c ++ ['\n'] ∈
        (CS.filter (retainChunk files exclude)).map (fun c => renderLines c ++ ['\n']) :=
      List.mem_map_of_mem _ (List.mem_filter.mpr ⟨hc, hr⟩)
    have := h _ hmem
    simp at this
  · intro h l hl
    rw [List.mem_map] at hl
    obtain ⟨c, hc, rfl⟩ := hl
    have hmem := List.mem_filter.mp hc
    rw [h c hmem.1] at hmem
    cases hmem.2

/-- C5 (amended): on a body made of well-formed per-file chunks,
`EmptyCommitError` is raised iff no chunk is retained; when it is raised the
payload has already been fully rewritten (empty body installed, diffstat
regenerated).  `filter(["/nonexistent"], exclude=False)` raises on every
nonempty patch none of whose chunk filenames is literally `/nonexistent`
(such a filename is expressible, e.g. through a `+++ a//nonexistent` line,
and would be retained by the exact-membership test). -/
theorem C5_filter_empty_raise (ds : Str → Str) (files : List Str) (exclude : Bool)
    (payload : Str) (CS : List (List Str))
    (hbody : bodyLines (splitLines payload) = CS.flatten)
    (hwf : ∀ c ∈ CS, WFChunk c) :
    ((pyfilter ds files exclude payload).raisedEmpty = true ↔
      ∀ c ∈ CS, retainChunk files exclude c = false) ∧
    (pyfilter ds files exclude payload).payload =
      update_diffstat ds
        (renderLines (headerLines (splitLines payload)) ++ joinRetained files exclude CS) ∧
    ((∀ c ∈ CS, lastPPP c ≠ some (str "/nonexistent")) →
      (pyfilter ds [str "/nonexistent"] false payload).raisedEmpty = true) := by
  have hfb : ∀ (fs : List Str) (ex : Bool),
      filterBody fs ex (bodyLines (splitLines payload)) = joinRetained fs ex CS := by
    intro fs ex
    rw [hbody]
    exact filterBody_eq_joinRetained fs ex CS hwf
  refine ⟨?_, ?_, ?_⟩
  · show decide (filterBody files exclude (bodyLines (splitLines payload)) = []) = true ↔ _
    rw [decide_eq_true_eq, hfb]
    exact joinRetained_eq_nil
  · show update_diffstat ds
        (renderLines (headerLines (splitLines payload)) ++
          filterBody files exclude (bodyLines (splitLines payload))) = _
    rw [hfb]
  · intro hnone
    show decide (filterBody [str "/nonexistent"] false (bodyLines (splitLines payload)) = []) =
      true
    rw [decide_eq_true_eq, hfb]
    rw [joinRetained_eq_nil]
    intro c hc
    unfold retainChunk
    cases hlp : lastPPP c with
    | none => rfl
    | some fn =>
      have hne : fn ≠ str "/nonexistent" := by
        intro h
        exact hnone c hc (h ▸ hlp)
      have hfp : file_in_path fn [str "/nonexistent"] = false := by
        unfold file_in_path
        rw [List.any_cons, List.any_nil]
        have h1 : decide (fn ∈ [str "/nonexistent"]) = false := by
          rw [decide_eq_false_iff_not]
          intro h
          exact hne (List.mem_singleton.mp h)
        have h2 : decide ((str "/nonexistent").getLast? = some '/') = false := by decide
        rw [h1, h2]
        rfl
      simp [hfp]

/-- C5 witness: a concrete nonempty one-chunk patch whose filename `a.c` is
not `/nonexistent`; filtering with `["/nonexistent"]` raises. -/
theorem C5_witness :
    (pyfilter (fun _ => str "S") [str "/nonexistent"] false
      (str "--- a/a.c\n+++ b/a.c\n-x\n")).raisedEmpty = true :=
  (C5_filter_empty_raise (fun _ => str "S") [str "/nonexistent"] false
      (str "--- a/a.c\n+++ b/a.c\n-x\n")
      [[str "--- a/a.c", str "+++ b/a.c", str "-x"]]
      (by decide)
      (by
        intro c hc
        rcases List.mem_cons.mp hc with rfl | hc
        · exact ⟨_, _, rfl, by decide, by decide⟩
        · cases hc)).2.2
    (by decide)

/-- C5 counterexample: a nonempty patch whose `+++ a//nonexistent` line makes
the stripped filename literally `/nonexistent`; `filter(["/nonexistent"],
exclude=False)` retains that chunk and does *not* raise, contradicting the
claim's "on any nonempty patch". -/
theorem C5_counterexample :
    (pyfilter (fun _ => str "S") [str "/nonexistent"] false
      (str "--- a/x\n+++ a//nonexistent\n")).raisedEmpty = false ∧
    str "--- a/x\n+++ a//nonexistent\n" ≠ [] := by
  constructor
  · rfl
  · decide

/-! ## C4: `handle_merge` -/

lemma atAt_not_patchStart {l : Str} (h : (str "@@@").isPrefixOf l = true) :
    patchStart l = false := by
  obtain ⟨t, rfl⟩ := List.isPrefixOf_iff_prefix.mp h
  rfl

lemma hmg_out_start {chunk text l : Str} {rest : List Str} (hps : patchStart l = true) :
    handleMergeGo false chunk text (l :: rest) =
      handleMergeGo false (chunk ++ l ++ ['\n']) text rest := by
  simp only [handleMergeGo, hps]
  rfl

lemma hmg_out_plain {chunk text l : Str} {rest : List Str} (hps : patchStart l = false)
    (hat : (str "@@@").isPrefixOf l = false) :
    handleMergeGo false chunk text (l :: rest) =
      handleMergeGo false (chunk ++ l ++ ['\n']) text rest := by
  simp only [handleMergeGo, hps, hat]
  rfl

lemma hmg_out_marker {chunk text l : Str} {rest : List Str} (hps : patchStart l = false)
    (hat : (str "@@@").isPrefixOf l = true) :
    handleMergeGo false chunk text (l :: rest) =
      handleMergeGo true [] (text ++ chunk) rest := by
  simp only [handleMergeGo, hps, hat]
  rfl

lemma hmg_in_marker {chunk text l : Str} {rest : List Str} (hps : patchStart l = false)
    (hat : (str "@@@").isPrefixOf l = true) :
    handleMergeGo true chunk text (l :: rest) =
      handleMergeGo true [] (text ++ shrink_chunk chunk) rest := by
  simp only [handleMergeGo, hps, hat]
  rfl

lemma hmg_in_keep {chunk text : Str} {a b : Char} {t : Str} {rest : List Str}
    (hps : patchStart (a :: b :: t) = false)
    (hat : (str "@@@").isPrefixOf (a :: b :: t) = false) (hb : b = ' ' ∨ b = '+') :
    handleMergeGo true chunk text ((a :: b :: t) :: rest) =
      handleMergeGo true (chunk ++ (a :: t) ++ ['\n']) text rest := by
  simp only [handleMergeGo, hps, hat]
  rw [if_pos hb]
  rfl

lemma hmg_in_drop {chunk text : Str} {a b : Char} {t : Str} {rest : List Str}
    (hps : patchStart (a :: b :: t) = false)
    (hat : (str "@@@").isPrefixOf (a :: b :: t) = false) (hb : ¬(b = ' ' ∨ b = '+')) :
    handleMergeGo true chunk text ((a :: b :: t) :: rest) =
      handleMergeGo true chunk text rest := by
  simp only [handleMergeGo, hps, hat]
  rw [if_neg hb]
  rfl

lemma hm_header (rest : List Str) :
    ∀ (H : List Str) (chunk text : Str), (∀ l ∈ H, (str "@@@").isPrefixOf l = false) →
      handleMergeGo false chunk text (H ++ rest) =
        handleMergeGo false (chunk ++ renderLines H) text rest
  | [], chunk, text, _ => by simp [renderLines]
  | l :: H, chunk, text, hH => by
    have hl : (str "@@@").isPrefixOf l = false := hH l (List.mem_cons_self l H)
    have hrec := hm_header rest H (chunk ++ l ++ ['\n']) text
      (fun x hx => hH x (List.mem_cons_of_mem l hx))
    rw [List.cons_append]
    by_cases hps : patchStart l = true
    · rw [hmg_out_start hps, hrec, renderLines_cons]
      simp [List.append_assoc]
    · rw [hmg_out_plain (Bool.not_eq_true _ ▸ hps) hl, hrec, renderLines_cons]
      simp [List.append_assoc]

lemma hm_data (rest : List Str) :
    ∀ (D : List Str) (chunk text : Str),
      (∀ l ∈ D, patchStart l = false ∧ (str "@@@").isPrefixOf l = false ∧ 2 ≤ l.length) →
      handleMergeGo true chunk text (D ++ rest) =
        handleMergeGo true (chunk ++ renderLines (D.filterMap mergeKeep)) text rest
  | [], chunk, text, _ => by simp [renderLines]
  | l :: D, chunk, text, hD => by
    obtain ⟨hps, hat, hlen⟩ := hD l (List.mem_cons_self l D)
    have hrest := fun x hx => hD x (List.mem_cons_of_mem l hx)
    obtain ⟨a, b, t, rfl⟩ : ∃ a b t, l = a :: b :: t := by
      match l, hlen with
      | a :: b :: t, _ => exact ⟨a, b, t, rfl⟩
    rw [List.cons_append]
    by_cases hb : b = ' ' ∨ b = '+'
    · rw [hmg_in_keep hps hat hb, hm_data rest D _ text hrest, List.filterMap_cons]
      have hmk : mergeKeep (a :: b :: t) =
          if b = ' ' ∨ b = '+' then some (a :: t) else none := rfl
      have : mergeKeep (a :: b :: t) = some (a :: t) := by rw [hmk, if_pos hb]
      rw [this, renderLines_cons]
      simp [List.append_assoc]
    · rw [hmg_in_drop hps hat hb, hm_data rest D _ text hrest, List.filterMap_cons]
      have hmk : mergeKeep (a :: b :: t) =
          if b = ' ' ∨ b = '+' then some (a :: t) else none := rfl
      have : mergeKeep (a :: b :: t) = none := by rw [hmk, if_neg hb]
      rw [this]

lemma hm_after_marker :
    ∀ (CS : List (Str × List Str)) (D : List Str) (text : Str),
      (∀ l ∈ D, patchStart l = false ∧ (str "@@@").isPrefixOf l = false ∧ 2 ≤ l.length) →
      (∀ p ∈ CS, WFMerge p) →
      handleMergeGo true [] text (D ++ (CS.map (fun p => p.1 :: p.2)).flatten) =
        some (text ++ shrink_chunk (renderLines (D.filterMap mergeKeep)) ++
          (CS.map (fun p => shrink_chunk (renderLines (p.2.filterMap mergeKeep)))).flatten)
  | [], D, text, hD, _ => by
    rw [hm_data _ D [] text hD]
    simp [handleMergeGo]
  | p :: CS, D, text, hD, hCS => by
    obtain ⟨hat, hdata⟩ := hCS p (List.mem_cons_self p CS)
    rw [List.map_cons, List.flatten_cons, hm_data _ D [] text hD, List.cons_append,
      hmg_in_marker (atAt_not_patchStart hat) hat,
      hm_after_marker CS p.2 _ hdata (fun q hq => hCS q (List.mem_cons_of_mem p hq))]
    simp [List.append_assoc]

/-- C4 (amended): on a payload whose body consists of a marker-free prefix
`H` followed by combined-diff chunks (each an `@@@` marker line plus data
lines of length at least 2), `handle_merge` keeps the header region and `H`
unchanged, and each chunk is rewritten in order: every data line whose second
prefix column is a space or `+` is kept with that column removed (first
column retained, remainder unchanged) and every other data line is dropped,
after which the chunk is renumbered by `shrink_chunk`.  A data line shorter
than two characters makes the operation fail (`IndexError` reading
`line[1]`), so it is neither kept nor dropped. -/
theorem C4_handle_merge_columns (pl : List Str) (H : List Str) (CS : List (Str × List Str))
    (hsplit : bodyLines pl = H ++ (CS.map (fun p => p.1 :: p.2)).flatten)
    (hH : ∀ l ∈ H, (str "@@@").isPrefixOf l = false)
    (hCS : ∀ p ∈ CS, WFMerge p) :
    handle_merge_lines pl =
      some (renderLines (headerLines pl) ++ renderLines H ++
        (CS.map (fun p => shrink_chunk (renderLines (p.2.filterMap mergeKeep)))).flatten) := by
  unfold handle_merge_lines
  rw [hsplit, hm_header _ H [] [] hH]
  cases CS with
  | nil =>
    simp [handleMergeGo, Option.map]
  | cons p CS =>
    obtain ⟨hat, hdata⟩ := hCS p (List.mem_cons_self p CS)
    rw [List.map_cons, List.flatten_cons, List.cons_append,
      hmg_out_marker (atAt_not_patchStart hat) hat,
      hm_after_marker CS p.2 _ hdata (fun q hq => hCS q (List.mem_cons_of_mem p hq))]
    simp [List.append_assoc]

/-- C4 witness: the amended theorem at a concrete body with one combined
chunk; the `+ kept` line survives with its second column removed, the
`--removed` line is dropped. -/
theorem C4_witness :
    handle_merge_lines [str "msg", str "--- a/f", str "@@@ -1,1 -1,1 +1,1 @@@",
        str "+ kept", str " +also", str "ablank", str "--removed"] =
      some (renderLines (headerLines [str "msg", str "--- a/f", str "@@@ -1,1 -1,1 +1,1 @@@",
          str "+ kept", str " +also", str "ablank", str "--removed"]) ++
        renderLines [str "--- a/f"] ++
        (([((str "@@@ -1,1 -1,1 +1,1 @@@"),
            [str "+ kept", str " +also", str "ablank", str "--removed"])].map
          (fun p => shrink_chunk (renderLines (p.2.filterMap mergeKeep)))).flatten)) :=
  C4_handle_merge_columns
    [str "msg", str "--- a/f", str "@@@ -1,1 -1,1 +1,1 @@@",
     str "+ kept", str " +also", str "ablank", str "--removed"]
    [str "--- a/f"]
    [((str "@@@ -1,1 -1,1 +1,1 @@@"),
      [str "+ kept", str " +also", str "ablank", str "--removed"])]
    (by decide) (by decide)
    (by
      intro p hp
      rcases List.mem_cons.mp hp with rfl | hp
      · exact ⟨by decide, by decide⟩
      · cases hp)

/-- C4 counterexample: a combined chunk containing an empty data line.  The
claim says a data line whose second column is not a space or `+` is "dropped
entirely", but the code evaluates `line[1]` first and raises `IndexError`
(modelled as `none`), so the whole operation fails instead. -/
theorem C4_counterexample :
    handle_merge_lines [str "--- a/f", str "@@@ x", str ""] = none := by decide

/-! ## C8: `add_signature` idempotence -/

lemma pySplitAux_cons_nl (acc : Str) {d : Char} {rest : Str} :
    pySplitAux acc ('\n' :: d :: rest) = acc.reverse :: pySplitAux [] (d :: rest) := rfl

lemma pySplitAux_cons_ne (acc : Str) {c : Char} (rest : Str) (hc : ¬ c = '\n') :
    pySplitAux acc (c :: rest) = pySplitAux (c :: acc) rest := by
  rw [pySplitAux.eq_def]
  simp [hc]

lemma pySplitAux_no_newline :
    ∀ (cs acc : Str), (∀ c ∈ acc, c ≠ '\n') → ∀ l ∈ pySplitAux acc cs, '\n' ∉ l := by
  intro cs
  induction cs with
  | nil =>
    intro acc hacc l hl
    rw [show pySplitAux acc [] = [acc.reverse] from rfl, List.mem_singleton] at hl
    subst hl
    intro hmem
    exact hacc '\n' (List.mem_reverse.mp hmem) rfl
  | cons c rest ih =>
    intro acc hacc l hl
    by_cases hc : c = '\n'
    · subst hc
      cases rest with
      | nil =>
        rw [show pySplitAux acc ['\n'] = [acc.reverse] from rfl, List.mem_singleton] at hl
        subst hl
        intro hmem
        exact hacc '\n' (List.mem_reverse.mp hmem) rfl
      | cons d rest' =>
        rw [pySplitAux_cons_nl] at hl
        rcases List.mem_cons.mp hl with rfl | hl'
        · intro hmem
          exact hacc '\n' (List.mem_reverse.mp hmem) rfl
        · exact ih [] (by intro x hx; cases hx) l hl'
    · rw [pySplitAux_cons_ne acc rest hc] at hl
      refine ih (c :: acc) ?_ l hl
      intro x hx
      rcases List.mem_cons.mp hx with rfl | hx
      · exact hc
      · exact hacc x hx

lemma splitLines_no_newline {cs l : Str} (hl : l ∈ splitLines cs) : '\n' ∉ l := by
  cases cs with
  | nil => cases hl
  | cons c rest =>
    exact pySplitAux_no_newline (c :: rest) [] (by intro x hx; cases hx) l hl

lemma splitLines_of_ne_nil {cs : Str} (h : cs ≠ []) : splitLines cs = pySplitAux [] cs := by
  cases cs with
  | nil => exact absurd rfl h
  | cons c rest => rfl

lemma renderLines_eq_nil_iff {ls : List Str} : renderLines ls = [] ↔ ls = [] := by
  unfold renderLines
  rw [List.flatten_eq_nil_iff]
  constructor
  · intro h
    cases ls with
    | nil => rfl
    | cons l ls =>
      have := h (l ++ ['\n']) (List.mem_map_of_mem _ (List.mem_cons_self l ls))
      exact absurd this (by simp)
  · rintro rfl
    intro l hl
    cases hl

lemma pySplitAux_render (w : Str) :
    ∀ (l acc : Str), '\n' ∉ l →
      pySplitAux acc (l ++ '\n' :: w) =
        (acc.reverse ++ l) :: (if w = [] then [] else pySplitAux [] w)
  | [], acc, _ => by
    cases w with
    | nil => simp [pySplitAux]
    | cons d rest => simp [pySplitAux_cons_nl]
  | c :: l', acc, hnl => by
    have hc : ¬ c = '\n' := fun h => hnl (h ▸ List.mem_cons_self c l')
    rw [List.cons_append, pySplitAux_cons_ne acc _ hc,
      pySplitAux_render w l' (c :: acc) (fun h => hnl (List.mem_cons_of_mem c h))]
    simp

lemma renderLines_cons_nl (l : Str) (ls : List Str) :
    renderLines (l :: ls) = l ++ '\n' :: renderLines ls := by
  rw [renderLines_cons]
  simp

lemma splitLines_renderLines : ∀ (ls : List Str), (∀ l ∈ ls, '\n' ∉ l) →
    splitLines (renderLines ls) = ls
  | [], _ => rfl
  | l :: ls, h => by
    have hne : renderLines (l :: ls) ≠ [] := by
      rw [Ne, renderLines_eq_nil_iff]
      exact List.cons_ne_nil l ls
    rw [splitLines_of_ne_nil hne, renderLines_cons_nl,
      pySplitAux_render _ l [] (h l (List.mem_cons_self l ls))]
    simp only [List.reverse_nil, List.nil_append]
    by_cases hls : renderLines ls = []
    · rw [if_pos hls, renderLines_eq_nil_iff.mp hls]
    · rw [if_neg hls, ← splitLines_of_ne_nil hls,
        splitLines_renderLines ls (fun x hx => h x (List.mem_cons_of_mem l hx))]

lemma mem_splitLines_mid :
    ∀ (u : Str) (v w acc : Str), '\n' ∉ v →
      v ∈ pySplitAux acc (u ++ '\n' :: (v ++ '\n' :: w))
  | [], v, w, acc, hnl => by
    rw [List.nil_append]
    cases hvw : v ++ '\n' :: w with
    | nil => exact absurd hvw (by simp)
    | cons d rest =>
      have h2 : pySplitAux [] (d :: rest) =
          (([] : Str).reverse ++ v) :: (if w = [] then [] else pySplitAux [] w) := by
        rw [← hvw]
        exact pySplitAux_render w v [] hnl
      rw [pySplitAux_cons_nl, h2]
      exact List.mem_cons_of_mem _ (by simp)
  | c :: u', v, w, acc, hnl => by
    rw [List.cons_append]
    by_cases hc : c = '\n'
    · subst hc
      cases huw : u' ++ '\n' :: (v ++ '\n' :: w) with
      | nil => exact absurd huw (by simp)
      | cons d rest =>
        have h2 : pySplitAux [] (d :: rest) =
            pySplitAux [] (u' ++ '\n' :: (v ++ '\n' :: w)) := by rw [huw]
        rw [pySplitAux_cons_nl, h2]
        exact List.mem_cons_of_mem _ (mem_splitLines_mid u' v w [] hnl)
    · rw [pySplitAux_cons_ne acc _ hc]
      exact mem_splitLines_mid u' v w (c :: acc) hnl

lemma splitLines_mem_mid {u v w : Str} (hnl : '\n' ∉ v) :
    v ∈ splitLines (u ++ '\n' :: (v ++ '\n' :: w)) := by
  have hne : u ++ '\n' :: (v ++ '\n' :: w) ≠ [] := by simp
  rw [splitLines_of_ne_nil hne]
  exact mem_splitLines_mid u v w [] hnl

lemma rstrip_append (u v : Str) :
    rstrip (u ++ v) = if rstrip v = [] then rstrip u else u ++ rstrip v := by
  unfold rstrip
  rw [List.reverse_append, List.dropWhile_append]
  by_cases h : (v.reverse.dropWhile pyWS).isEmpty = true
  · rw [if_pos h]
    have hv : (v.reverse.dropWhile pyWS).reverse = [] := by
      rw [List.isEmpty_iff] at h
      rw [h]
      rfl
    rw [if_pos hv]
  · rw [if_neg h]
    have hv : (v.reverse.dropWhile pyWS).reverse ≠ [] := by
      intro hcon
      rw [List.isEmpty_iff] at h
      exact h (by simpa using congrArg List.reverse hcon)
    rw [if_neg hv, List.reverse_append, List.reverse_reverse]

lemma rstrip_last_nonws (X : Str) {c : Char} (hc : pyWS c = false) :
    rstrip (X ++ [c]) = X ++ [c] := by
  rw [rstrip_append]
  have h1 : rstrip [c] = [c] := by
    unfold rstrip
    simp [List.dropWhile, hc]
  rw [h1]
  rw [if_neg (List.cons_ne_nil c [])]

lemma hasTagLine_append {tl text : Str} (X : Str) (h : hasTagLine tl text) :
    hasTagLine tl (text ++ X) := by
  obtain ⟨A, B, rfl⟩ := h
  exact ⟨A, B ++ X, by simp⟩

lemma sigTagLine_ends_gt (name email : Str) (sob : Bool) :
    ∃ Y, sigTagLine name email sob = Y ++ ['>'] :=
  ⟨(if sob then str "Signed-off-by" else str "Acked-by") ++ str ": " ++ name ++
    str " <" ++ email, rfl⟩

lemma hasTagLine_rstrip_nl {tl text : Str} (htl : ∃ Y, tl = Y ++ ['>'])
    (h : hasTagLine tl text) : hasTagLine tl (rstrip text ++ ['\n']) := by
  obtain ⟨Y, rfl⟩ := htl
  obtain ⟨A, B, rfl⟩ := h
  have hsplit : A ++ '\n' :: ((Y ++ ['>']) ++ '\n' :: B) =
      ((A ++ '\n' :: Y) ++ ['>']) ++ '\n' :: B := by simp
  rw [hsplit, rstrip_append]
  by_cases hB : rstrip ('\n' :: B) = []
  · rw [if_pos hB, rstrip_last_nonws _ (by rfl)]
    exact ⟨A, [], by simp⟩
  · rw [if_neg hB]
    have hBne : rstrip B ≠ [] := by
      intro hcon
      apply hB
      rw [show ('\n' :: B : Str) = ['\n'] ++ B from rfl, rstrip_append, if_pos hcon]
      rfl
    have hr : rstrip ('\n' :: B) = '\n' :: rstrip B := by
      rw [show ('\n' :: B : Str) = ['\n'] ++ B from rfl, rstrip_append, if_neg hBne]
      rfl
    rw [hr]
    exact ⟨A, rstrip B ++ ['\n'], by simp⟩

lemma sigLoop_preserves (name email : Str) (sob : Bool) :
    ∀ (ls : List Str) (text last : Str),
      hasTagLine (sigTagLine name email sob) text →
      hasTagLine (sigTagLine name email sob) (sigLoop name email sob text last ls)
  | [], _, _, h => h
  | line :: rest, text, last, h => by
    rw [sigLoop]
    split
    · refine sigLoop_preserves name email sob rest _ line ?_
      refine hasTagLine_append ['\n'] (hasTagLine_append line ?_)
      refine hasTagLine_append ['\n'] (hasTagLine_append (sigTagLine name email sob) ?_)
      split
      · exact hasTagLine_append ['\n']
          (hasTagLine_rstrip_nl (sigTagLine_ends_gt name email sob) h)
      · exact hasTagLine_rstrip_nl (sigTagLine_ends_gt name email sob) h
    · refine sigLoop_preserves name email sob rest _ line ?_
      exact hasTagLine_append ['\n'] (hasTagLine_append line h)

lemma sigLoop_inserts (name email : Str) (sob : Bool) :
    ∀ (ls : List Str) (text last : Str), str "---" ∈ ls →
      hasTagLine (sigTagLine name email sob) (sigLoop name email sob text last ls)
  | line :: rest, text, last, hmem => by
    rw [sigLoop]
    by_cases hline : line = str "---"
    · rw [if_pos hline]
      refine sigLoop_preserves name email sob rest _ line ?_
      refine hasTagLine_append ['\n'] (hasTagLine_append line ?_)
      split
      · exact ⟨rstrip text ++ ['\n'], [], by simp⟩
      · exact ⟨rstrip text, [], by simp⟩
    · rw [if_neg hline]
      have hrest : str "---" ∈ rest := by
        rcases List.mem_cons.mp hmem with heq | hr
        · exact absurd heq.symm hline
        · exact hr
      exact sigLoop_inserts name email sob rest _ line hrest

lemma sigLoop_no_insert (name email : Str) (sob : Bool) :
    ∀ (ls : List Str) (text last : Str), str "---" ∉ ls →
      sigLoop name email sob text last ls = text ++ renderLines ls
  | [], text, _, _ => by simp [sigLoop, renderLines]
  | line :: rest, text, last, hmem => by
    have hline : ¬ line = str "---" := fun h => hmem (h ▸ List.mem_cons_self line rest)
    rw [sigLoop, if_neg hline,
      sigLoop_no_insert name email sob rest _ line (fun h => hmem (List.mem_cons_of_mem _ h)),
      renderLines_cons]
    simp [List.append_assoc]

lemma reParse_cons_eq (c : Char) (rest : Str) :
    reParse (c :: rest) =
      (if c = '*' || c = '+' || reUnsupported c then none
       else
         match rest with
         | [] => some [RPiece.once (reAtomOf c)]
         | q :: rest2 =>
           if q = '*' then (reParse rest2).map (fun ps => RPiece.star (reAtomOf c) :: ps)
           else if q = '+' then (reParse rest2).map (fun ps => RPiece.plus (reAtomOf c) :: ps)
           else (reParse (q :: rest2)).map (fun ps => RPiece.once (reAtomOf c) :: ps)) := by
  rw [reParse.eq_def]
  rfl

lemma matchHere_zero (ps : List RPiece) (s : Str) : matchHere 0 ps s = false := by
  rw [matchHere.eq_def]

lemma matchHere_nilp (f : Nat) (s : Str) : matchHere (f + 1) [] s = true := by
  rw [matchHere.eq_def]

lemma matchHere_once_nil (f : Nat) (a : RAtom) (ps : List RPiece) :
    matchHere (f + 1) (RPiece.once a :: ps) [] = false := by
  rw [matchHere.eq_def]

lemma matchHere_once_cons (f : Nat) (a : RAtom) (ps : List RPiece) (c : Char) (rest : Str) :
    matchHere (f + 1) (RPiece.once a :: ps) (c :: rest) =
      (atomMatch a c && matchHere f ps rest) := by
  rw [matchHere.eq_def]

lemma matchHere_star_nil (f : Nat) (a : RAtom) (ps : List RPiece) :
    matchHere (f + 1) (RPiece.star a :: ps) [] = matchHere f ps [] := by
  rw [matchHere.eq_def]
  dsimp only
  exact Bool.or_false _

lemma matchHere_star_cons (f : Nat) (a : RAtom) (ps : List RPiece) (c : Char) (rest : Str) :
    matchHere (f + 1) (RPiece.star a :: ps) (c :: rest) =
      (matchHere f ps (c :: rest) || (atomMatch a c && matchHere f (RPiece.star a :: ps) rest)) := by
  rw [matchHere.eq_def]

lemma matchHere_plus_nil (f : Nat) (a : RAtom) (ps : List RPiece) :
    matchHere (f + 1) (RPiece.plus a :: ps) [] = false := by
  rw [matchHere.eq_def]

lemma matchHere_plus_cons (f : Nat) (a : RAtom) (ps : List RPiece) (c : Char) (rest : Str) :
    matchHere (f + 1) (RPiece.plus a :: ps) (c :: rest) =
      (atomMatch a c && matchHere f (RPiece.star a :: ps) rest) := by
  rw [matchHere.eq_def]

lemma reParse_self (w : Str) (hw : ∀ c ∈ w, reSelfChar c = true) :
    reParse w = some (w.map (fun c => RPiece.once (reAtomOf c))) := by
  induction w with
  | nil => rfl
  | cons c w ih =>
    have hc := hw c (List.mem_cons_self c w)
    rw [reSelfChar, Bool.not_eq_true'] at hc
    rw [reParse_cons_eq, if_neg (by rw [hc]; exact Bool.false_ne_true)]
    cases w with
    | nil => rfl
    | cons q w2 =>
      have hq := hw q (List.mem_cons_of_mem _ (List.mem_cons_self q w2))
      rw [reSelfChar, Bool.not_eq_true'] at hq
      have hq1 : ¬ q = '*' := by
        intro h
        rw [h] at hq
        exact absurd hq (by decide)
      have hq2 : ¬ q = '+' := by
        intro h
        rw [h] at hq
        exact absurd hq (by decide)
      dsimp only
      rw [if_neg hq1, if_neg hq2,
        ih (fun d hd => hw d (List.mem_cons_of_mem _ hd)), Option.map_some']
      rfl

lemma reParse_append_self (u v : Str) (hu : ∀ c ∈ u, reSelfChar c = true)
    (hv : ∀ c, v.head? = some c → reSelfChar c = true) :
    reParse (u ++ v) =
      (reParse v).map (fun ps => u.map (fun c => RPiece.once (reAtomOf c)) ++ ps) := by
  induction u with
  | nil =>
    cases h : reParse v
    · rw [List.nil_append, h]
      rfl
    · rw [List.nil_append, h]
      simp
  | cons c u ih =>
    have hc := hu c (List.mem_cons_self c u)
    rw [reSelfChar, Bool.not_eq_true'] at hc
    rw [List.cons_append, reParse_cons_eq, if_neg (by rw [hc]; exact Bool.false_ne_true)]
    cases hcase : u ++ v with
    | nil =>
      obtain ⟨hu0, hv0⟩ := List.append_eq_nil.mp hcase
      subst hu0
      subst hv0
      rfl
    | cons q rest2 =>
      have hq : reSelfChar q = true := by
        cases u with
        | nil =>
          refine hv q ?_
          rw [List.nil_append] at hcase
          rw [hcase]
          rfl
        | cons d u2 =>
          have hdq : d = q := by
            rw [List.cons_append] at hcase
            exact (List.cons.injEq _ _ _ _ ▸ hcase).1
          exact hdq ▸ hu d (List.mem_cons_of_mem _ (List.mem_cons_self d u2))
      rw [reSelfChar, Bool.not_eq_true'] at hq
      have hq1 : ¬ q = '*' := by
        intro h
        rw [h] at hq
        exact absurd hq (by decide)
      have hq2 : ¬ q = '+' := by
        intro h
        rw [h] at hq
        exact absurd hq (by decide)
      dsimp only
      rw [if_neg hq1, if_neg hq2, ← hcase,
        ih (fun d hd => hu d (List.mem_cons_of_mem _ hd))]
      cases reParse v
      · rfl
      · simp

lemma reParse_sigPattern (tag email : Str)
    (htag : ∀ c ∈ tag, reSelfChar c = true)
    (hemail : ∀ c ∈ email, reSelfChar c = true) :
    reParse (sigPattern tag email) =
      some (tag.map (fun c => RPiece.once (reAtomOf c)) ++
        (RPiece.star RAtom.dot :: email.map (fun c => RPiece.once (reAtomOf c)))) := by
  unfold sigPattern
  rw [List.append_assoc,
    reParse_append_self tag (str ".*" ++ email) htag (fun c hc => by cases hc; decide)]
  have hmid : reParse (str ".*" ++ email) =
      some (RPiece.star RAtom.dot :: email.map (fun c => RPiece.once (reAtomOf c))) := by
    show reParse ('.' :: '*' :: email) = _
    rw [reParse_cons_eq, if_neg (by decide)]
    dsimp only
    rw [if_pos rfl, reParse_self email hemail]
    rfl
  rw [hmid]
  rfl

lemma matchHere_mono : ∀ (f : Nat) {f' : Nat} (ps : List RPiece) (s : Str), f ≤ f' →
    matchHere f ps s = true → matchHere f' ps s = true
  | 0, _, ps, s, _, h => absurd h (by rw [matchHere_zero]; exact Bool.false_ne_true)
  | f + 1, f', ps, s, hle, h => by
    obtain ⟨g, rfl⟩ : ∃ g, f' = g + 1 := ⟨f' - 1, by omega⟩
    have hfg : f ≤ g := by omega
    cases ps with
    | nil => rw [matchHere_nilp]
    | cons p ps =>
      cases p with
      | once a =>
        cases s with
        | nil => rw [matchHere_once_nil] at h; exact absurd h (by decide)
        | cons c rest =>
          rw [matchHere_once_cons, Bool.and_eq_true] at h ⊢
          exact ⟨h.1, matchHere_mono f ps rest hfg h.2⟩
      | star a =>
        cases s with
        | nil =>
          rw [matchHere_star_nil] at h ⊢
          exact matchHere_mono f ps [] hfg h
        | cons c rest =>
          rw [matchHere_star_cons, Bool.or_eq_true] at h ⊢
          rcases h with h | h
          · exact Or.inl (matchHere_mono f ps (c :: rest) hfg h)
          · rw [Bool.and_eq_true] at h
            right
            rw [Bool.and_eq_true]
            exact ⟨h.1, matchHere_mono f (RPiece.star a :: ps) rest hfg h.2⟩
      | plus a =>
        cases s with
        | nil => rw [matchHere_plus_nil] at h; exact absurd h (by decide)
        | cons c rest =>
          rw [matchHere_plus_cons, Bool.and_eq_true] at h ⊢
          exact ⟨h.1, matchHere_mono f (RPiece.star a :: ps) rest hfg h.2⟩

lemma atomMatch_reAtomOf (c : Char) : atomMatch (reAtomOf c) c = true := by
  unfold reAtomOf
  split
  · rfl
  · simp [atomMatch]

lemma matchHere_lits (w : Str) (ps : List RPiece) (s : Str) (f : Nat)
    (h : matchHere f ps s = true) :
    matchHere (w.length + f) (w.map (fun c => RPiece.once (reAtomOf c)) ++ ps)
      (w ++ s) = true := by
  induction w with
  | nil => simpa using h
  | cons c w ih =>
    have hlen : (c :: w).length + f = w.length + f + 1 := by
      rw [List.length_cons]
      omega
    rw [List.map_cons, List.cons_append, List.cons_append, hlen, matchHere_once_cons,
      Bool.and_eq_true]
    exact ⟨atomMatch_reAtomOf c, ih⟩

lemma matchHere_starDot (u : Str) (ps : List RPiece) (s : Str) (f : Nat)
    (h : matchHere f ps s = true) :
    matchHere (u.length + f + 1) (RPiece.star RAtom.dot :: ps) (u ++ s) = true := by
  induction u with
  | nil =>
    simp only [List.length_nil, Nat.zero_add, List.nil_append]
    cases hs : s with
    | nil =>
      rw [matchHere_star_nil]
      rw [hs] at h
      exact h
    | cons c rest =>
      rw [matchHere_star_cons, Bool.or_eq_true]
      rw [hs] at h
      exact Or.inl h
  | cons c u ih =>
    have hlen : (c :: u).length + f + 1 = u.length + f + 1 + 1 := by
      rw [List.length_cons]
      omega
    rw [List.cons_append, hlen, matchHere_star_cons, Bool.or_eq_true]
    right
    rw [Bool.and_eq_true]
    exact ⟨rfl, ih⟩

lemma sigSearch_taggedLine (tag pre email : Str)
    (htag : ∀ c ∈ tag, reSelfChar c = true)
    (hemail : ∀ c ∈ email, reSelfChar c = true) :
    sigSearch tag email (tag ++ (pre ++ (email ++ str ">"))) = true := by
  unfold sigSearch
  rw [reParse_sigPattern tag email htag hemail]
  unfold reSearch
  rw [List.any_eq_true]
  refine ⟨tag ++ (pre ++ (email ++ str ">")),
    (List.mem_tails _ _).mpr (List.suffix_refl _), ?_⟩
  have h3 : matchHere 1 [] (str ">") = true := matchHere_nilp 0 _
  have h2 := matchHere_lits email [] (str ">") 1 h3
  rw [List.append_nil] at h2
  have h1 := matchHere_starDot pre _ _ _ h2
  have h0 := matchHere_lits tag _ _ _ h1
  refine matchHere_mono _ _ _ ?_ h0
  simp only [List.length_append, List.length_map, List.length_cons]
  omega

lemma sigCheckLine_tag (emails : List Str) (name email : Str) (sob : Bool)
    (hmem : email ∈ emails) (hemail : ∀ c ∈ email, reSelfChar c = true) :
    sigCheckLine emails (sigTagLine name email sob) = true := by
  unfold sigCheckLine
  rw [List.any_eq_true]
  refine ⟨email, hmem, ?_⟩
  rw [Bool.or_eq_true]
  cases sob
  · left
    have key : sigTagLine name email false =
        str "Acked-by" ++ ((str ": " ++ name ++ str " <") ++ (email ++ str ">")) := by
      unfold sigTagLine
      simp [List.append_assoc]
    rw [key]
    exact sigSearch_taggedLine _ _ _ (by decide) hemail
  · right
    have key : sigTagLine name email true =
        str "Signed-off-by" ++ ((str ": " ++ name ++ str " <") ++ (email ++ str ">")) := by
      unfold sigTagLine
      simp [List.append_assoc]
    rw [key]
    exact sigSearch_taggedLine _ _ _ (by decide) hemail

lemma sigTagLine_no_newline {name email : Str} {sob : Bool} (hn : '\n' ∉ name)
    (he : '\n' ∉ email) : '\n' ∉ sigTagLine name email sob := by
  intro h
  simp only [sigTagLine, List.mem_append] at h
  rcases h with ((((h | h) | h) | h) | h) | h
  · cases sob <;> revert h <;> decide
  · exact absurd h (by decide)
  · exact hn h
  · exact absurd h (by decide)
  · exact he h
  · exact absurd h (by decide)

/-- C8 (amended): `add_signature` is idempotent whenever the configured
signing email is among the configured contact emails (which the configuration
loader guarantees: `emails = [email]` by default, else `email = emails[0]`),
the configured name and email are newline-free, and every character of the
email is regex-self-matching — no quantifier or other metacharacter, `.`
allowed.  The last hypothesis is needed because the source interpolates the
email into the search pattern `rf'{tag}.*{an_email}'`: an email such as
`a+b@x.org` turns into the piece `a+` and the second call's early-return scan
no longer finds the tag line the first call inserted (see the
counterexample).  Under these hypotheses: if the first call was a no-op the
second sees the same payload; if it modified the payload it inserted a
complete `Acked-by`/`Signed-off-by` line for `email`, which the second call's
early-return test finds; and if the payload has no `---` line the rebuild
only renormalizes line endings, which is itself idempotent. -/
theorem C8_add_signature_idempotent (emails : List Str) (name email : Str) (sob : Bool)
    (payload : Str) (hmem : email ∈ emails) (hn : '\n' ∉ name) (he : '\n' ∉ email)
    (hplain : ∀ c ∈ email, reSelfChar c = true) :
    add_signature emails name email sob (add_signature emails name email sob payload) =
      add_signature emails name email sob payload := by
  by_cases hchk : (splitLines payload).any (sigCheckLine emails) = true
  · unfold add_signature
    rw [if_pos hchk, if_pos hchk]
  · have h1 : add_signature emails name email sob payload =
        sigLoop name email sob [] [] (splitLines payload) := by
      unfold add_signature
      rw [if_neg hchk]
    rw [h1]
    by_cases hdash : str "---" ∈ splitLines payload
    · obtain ⟨A, B, hAB⟩ := sigLoop_inserts name email sob (splitLines payload) [] [] hdash
      have htl_nl : '\n' ∉ sigTagLine name email sob := sigTagLine_no_newline hn he
      have hmemline : sigTagLine name email sob ∈
          splitLines (sigLoop name email sob [] [] (splitLines payload)) := by
        rw [hAB]
        exact splitLines_mem_mid htl_nl
      have hchk2 : (splitLines (sigLoop name email sob [] [] (splitLines payload))).any
          (sigCheckLine emails) = true :=
        List.any_eq_true.mpr ⟨_, hmemline, sigCheckLine_tag emails name email sob hmem hplain⟩
      unfold add_signature
      rw [if_pos hchk2]
    · have hout : sigLoop name email sob [] [] (splitLines payload) =
          renderLines (splitLines payload) :=
        sigLoop_no_insert name email sob (splitLines payload) [] [] hdash
      have hsplit : splitLines (sigLoop name email sob [] [] (splitLines payload)) =
          splitLines payload := by
        rw [hout]
        exact splitLines_renderLines _ (fun l hl => splitLines_no_newline hl)
      unfold add_signature
      rw [hsplit, if_neg hchk]

/-- C8 witness: the idempotence theorem at a concrete configuration and
payload (which the first call does modify). -/
theorem C8_witness :
    add_signature [str "me@x.org"] (str "Me") (str "me@x.org") false
        (add_signature [str "me@x.org"] (str "Me") (str "me@x.org") false
          (str "Subject\n\n---\n diff\n")) =
      add_signature [str "me@x.org"] (str "Me") (str "me@x.org") false
        (str "Subject\n\n---\n diff\n") :=
  C8_add_signature_idempotent [str "me@x.org"] (str "Me") (str "me@x.org") false
    (str "Subject\n\n---\n diff\n") (by decide) (by decide) (by decide) (by decide)

/-- C8 counterexample: with the configured email `a+b@x.org` (a perfectly
possible git address) the interpolated pattern contains the piece `a+`,
which matches a run of `a`s followed by `b` and therefore not the literal
text `a+b@x.org`; the second call's early-return scan misses the
`Acked-by: N <a+b@x.org>` line the first call inserted and inserts it a
second time, so `add_signature` is not idempotent without the amended
regex-literal hypothesis. -/
theorem C8_counterexample :
    add_signature [str "a+b@x.org"] (str "N") (str "a+b@x.org") false
        (add_signature [str "a+b@x.org"] (str "N") (str "a+b@x.org") false
          (str "x\n---\nd\n")) ≠
      add_signature [str "a+b@x.org"] (str "N") (str "a+b@x.org") false
        (str "x\n---\nd\n") ∧
    add_signature [str "a+b@x.org"] (str "N") (str "a+b@x.org") false (str "x\n---\nd\n") =
      str "x\n\nAcked-by: N <a+b@x.org>\n---\nd\n" ∧
    add_signature [str "a+b@x.org"] (str "N") (str "a+b@x.org") false
        (str "x\n\nAcked-by: N <a+b@x.org>\n---\nd\n") =
      str "x\n\nAcked-by: N <a+b@x.org>\nAcked-by: N <a+b@x.org>\n---\nd\n" := by
  refine ⟨?_, by decide, by decide⟩
  decide

/-! ## C10: trailing newline after mutations -/

lemma endsNL_concat (X : Str) : endsNL (X ++ ['\n']) := List.getLast?_concat X

lemma endsNL_append_right {a b : Str} (hb : endsNL b) : endsNL (a ++ b) := by
  unfold endsNL at hb ⊢
  rw [List.getLast?_append, hb]
  rfl

lemma endsOk_append {a b : Str} (ha : endsOk a) (hb : endsOk b) : endsOk (a ++ b) := by
  rcases hb with rfl | hb
  · rw [List.append_nil]
    exact ha
  · exact Or.inr (endsNL_append_right hb)

lemma endsOk_renderLines (ls : List Str) : endsOk (renderLines ls) := by
  induction ls with
  | nil => exact Or.inl rfl
  | cons l ls ih =>
    rw [renderLines_cons]
    exact endsOk_append (Or.inr (endsNL_concat l)) ih

lemma endsNL_renderLines {ls : List Str} (h : ls ≠ []) : endsNL (renderLines ls) := by
  rcases endsOk_renderLines ls with hnil | hok
  · exact absurd (renderLines_eq_nil_iff.mp hnil) h
  · exact hok

lemma endsNL_of_endsOk_ne {a : Str} (h : endsOk a) (hne : a ≠ []) : endsNL a := by
  rcases h with rfl | h
  · exact absurd rfl hne
  · exact h

lemma pySplitAux_ne_nil : ∀ (cs acc : Str), pySplitAux acc cs ≠ []
  | [], acc => by simp [pySplitAux]
  | c :: rest, acc => by
    by_cases hc : c = '\n'
    · subst hc
      cases rest with
      | nil => simp [pySplitAux]
      | cons d rest' => rw [pySplitAux_cons_nl]; exact List.cons_ne_nil _ _
    · rw [pySplitAux_cons_ne acc rest hc]
      exact pySplitAux_ne_nil rest (c :: acc)

lemma splitLines_ne_nil {cs : Str} (h : cs ≠ []) : splitLines cs ≠ [] := by
  rw [splitLines_of_ne_nil h]
  exact pySplitAux_ne_nil cs []

lemma endsOk_shrink_chunk (chunk : Str) : endsOk (shrink_chunk chunk) := by
  show endsOk (((shrinkRun (splitLines chunk)).hunks.map (renderHunk (splitLines chunk))).flatten)
  generalize (shrinkRun (splitLines chunk)).hunks = hs
  induction hs with
  | nil => exact Or.inl rfl
  | cons h hs ih =>
    rw [List.map_cons, List.flatten_cons]
    exact endsOk_append (Or.inr (endsNL_concat _)) ih

lemma endsNL_add_diffstat_nonnoop (ds : Str → Str) (payload : Str)
    (h : (splitLines payload).any diffstatNoteLine = false) :
    endsNL (add_diffstat ds payload) := by
  unfold add_diffstat
  rw [if_neg (by rw [h]; exact Bool.false_ne_true)]
  refine endsNL_of_endsOk_ne
    (endsOk_append (endsOk_append (Or.inr (endsNL_concat _)) ?_)
      (endsOk_renderLines _)) (by simp)
  split <;> exact Or.inr (endsNL_concat _)

lemma endsNL_add_diffstat_pres (ds : Str → Str) {payload : Str} (h : endsNL payload) :
    endsNL (add_diffstat ds payload) := by
  by_cases hn : (splitLines payload).any diffstatNoteLine = true
  · unfold add_diffstat
    rw [if_pos hn]
    exact h
  · exact endsNL_add_diffstat_nonnoop ds payload (Bool.not_eq_true _ ▸ hn)

lemma endsNL_update_diffstat (ds : Str → Str) (payload : Str) :
    endsNL (update_diffstat ds payload) := by
  unfold update_diffstat
  refine endsNL_add_diffstat_pres ds ?_
  refine endsNL_of_endsOk_ne
    (endsOk_append (Or.inr (endsNL_concat _)) (endsOk_renderLines _)) (by simp)

lemma endsNL_sigLoop (name email : Str) (sob : Bool) :
    ∀ (ls : List Str) (text last : Str), ls ≠ [] →
      endsNL (sigLoop name email sob text last ls)
  | [], _, _, h => absurd rfl h
  | line :: rest, text, last, _ => by
    rw [sigLoop]
    cases rest with
    | nil =>
      split <;>
        · rw [show ∀ (t l : Str), sigLoop name email sob t l [] = t from fun _ _ => rfl]
          exact endsNL_concat _
    | cons r rest' =>
      split <;> exact endsNL_sigLoop name email sob (r :: rest') _ _ (List.cons_ne_nil _ _)

lemma hmGo_props :
    ∀ (ls : List Str) (in_chunk : Bool) (chunk text : Str),
      endsOk text → endsOk chunk →
      ∀ r, handleMergeGo in_chunk chunk text ls = some r →
        endsOk r ∧ ((text ≠ [] ∨ (in_chunk = false ∧ chunk ≠ [])) → r ≠ [])
  | [], in_chunk, chunk, text, htext, hchunk, r, hr => by
    rw [show handleMergeGo in_chunk chunk text [] =
        some (if in_chunk then text ++ shrink_chunk chunk else text ++ chunk) from rfl,
      Option.some_inj] at hr
    subst hr
    cases in_chunk with
    | false =>
      refine ⟨endsOk_append htext hchunk, ?_⟩
      rintro (hne | ⟨-, hne⟩) hcon
      · exact hne (List.append_eq_nil.mp hcon).1
      · exact hne (List.append_eq_nil.mp hcon).2
    | true =>
      refine ⟨endsOk_append htext (endsOk_shrink_chunk chunk), ?_⟩
      rintro (hne | ⟨hfalse, -⟩) hcon
      · exact hne (List.append_eq_nil.mp hcon).1
      · cases hfalse
  | line :: ls, in_chunk, chunk, text, htext, hchunk, r, hr => by
    by_cases hps : patchStart line = true
    · cases in_chunk with
      | true =>
        rw [show handleMergeGo true chunk text (line :: ls) =
            handleMergeGo false [] (text ++ shrink_chunk chunk) ls from by
          simp only [handleMergeGo, hps]; rfl] at hr
        have hres := hmGo_props ls false [] (text ++ shrink_chunk chunk)
          (endsOk_append htext (endsOk_shrink_chunk chunk)) (Or.inl rfl) r hr
        refine ⟨hres.1, ?_⟩
        rintro (hne | ⟨hcon, -⟩)
        · exact hres.2 (Or.inl (fun h => hne (List.append_eq_nil.mp h).1))
        · cases hcon
      | false =>
        rw [hmg_out_start hps] at hr
        have hres := hmGo_props ls false (chunk ++ line ++ ['\n']) text htext
          (Or.inr (endsNL_concat _)) r hr
        refine ⟨hres.1, fun _ => hres.2 (Or.inr ⟨rfl, by simp⟩)⟩
    · have hps' : patchStart line = false := Bool.not_eq_true _ ▸ hps
      by_cases hat : (str "@@@").isPrefixOf line = true
      · cases in_chunk with
        | true =>
          rw [hmg_in_marker hps' hat] at hr
          have hres := hmGo_props ls true [] (text ++ shrink_chunk chunk)
            (endsOk_append htext (endsOk_shrink_chunk chunk)) (Or.inl rfl) r hr
          refine ⟨hres.1, ?_⟩
          rintro (hne | ⟨hcon, -⟩)
          · exact hres.2 (Or.inl (fun h => hne (List.append_eq_nil.mp h).1))
          · cases hcon
        | false =>
          rw [hmg_out_marker hps' hat] at hr
          have hres := hmGo_props ls true [] (text ++ chunk)
            (endsOk_append htext hchunk) (Or.inl rfl) r hr
          refine ⟨hres.1, ?_⟩
          rintro (hne | ⟨-, hne⟩)
          · exact hres.2 (Or.inl (fun h => hne (List.append_eq_nil.mp h).1))
          · exact hres.2 (Or.inl (fun h => hne (List.append_eq_nil.mp h).2))
      · have hat' : (str "@@@").isPrefixOf line = false := Bool.not_eq_true _ ▸ hat
        cases in_chunk with
        | false =>
          rw [hmg_out_plain hps' hat'] at hr
          have hres := hmGo_props ls false (chunk ++ line ++ ['\n']) text htext
            (Or.inr (endsNL_concat _)) r hr
          refine ⟨hres.1, fun _ => hres.2 (Or.inr ⟨rfl, by simp⟩)⟩
        | true =>
          match line, hps', hat' with
          | [], hps', hat' =>
            rw [show handleMergeGo true chunk text ([] :: ls) = none from by
              simp only [handleMergeGo, hps', hat']; rfl] at hr
            cases hr
          | [a], hps', hat' =>
            rw [show handleMergeGo true chunk text ([a] :: ls) = none from by
              simp only [handleMergeGo, hps', hat']; rfl] at hr
            cases hr
          | a :: b :: t, hps', hat' =>
            by_cases hb : b = ' ' ∨ b = '+'
            · rw [hmg_in_keep hps' hat' hb] at hr
              have hres := hmGo_props ls true (chunk ++ (a :: t) ++ ['\n']) text htext
                (Or.inr (endsNL_concat _)) r hr
              refine ⟨hres.1, ?_⟩
              rintro (hne | ⟨hcon, -⟩)
              · exact hres.2 (Or.inl hne)
              · cases hcon
            · rw [hmg_in_drop hps' hat' hb] at hr
              have hres := hmGo_props ls true chunk text htext hchunk r hr
              refine ⟨hres.1, ?_⟩
              rintro (hne | ⟨hcon, -⟩)
              · exact hres.2 (Or.inl hne)
              · cases hcon

lemma endsNL_handle_merge {payload : Str} (hne : payload ≠ []) :
    ∀ r, handle_merge payload = some r → endsNL r := by
  intro r hr
  unfold handle_merge handle_merge_lines at hr
  cases hgo : handleMergeGo false [] [] (bodyLines (splitLines payload)) with
  | none => rw [hgo] at hr; cases hr
  | some rb =>
    rw [hgo] at hr
    have hr' : renderLines (headerLines (splitLines payload)) ++ rb = r :=
      Option.some_inj.mp hr
    subst hr'
    cases hbody : bodyLines (splitLines payload) with
    | nil =>
      rw [hbody] at hgo
      have hrb : rb = [] := by
        have : handleMergeGo false [] [] ([] : List Str) = some [] := rfl
        rw [this] at hgo
        exact (Option.some_inj.mp hgo).symm
      subst hrb
      rw [List.append_nil]
      have hhl : headerLines (splitLines payload) = splitLines payload := by
        have h1 := @List.takeWhile_append_dropWhile _
          (fun l => !patchStart l) (splitLines payload)
        unfold headerLines
        unfold bodyLines at hbody
        conv_rhs => rw [← h1]
        rw [hbody, List.append_nil]
      rw [hhl]
      exact endsNL_renderLines (splitLines_ne_nil hne)
    | cons l0 rest =>
      have hdw : (splitLines payload).dropWhile (fun l => !patchStart l) ≠ [] := by
        unfold bodyLines at hbody
        rw [hbody]
        exact List.cons_ne_nil _ _
      have hps : patchStart l0 = true := by
        have h1 := List.head_dropWhile_not (fun l => !patchStart l) (splitLines payload) hdw
        unfold bodyLines at hbody
        have h2 : ((splitLines payload).dropWhile (fun l => !patchStart l)).head hdw = l0 := by
          rw [show ∀ (xs : List Str) (h : xs ≠ []) (hx : xs = l0 :: rest), xs.head h = l0 from
            fun xs h hx => by subst hx; rfl]
          exact hbody
        rw [h2] at h1
        simpa using h1
      rw [hbody, hmg_out_start hps] at hgo
      have hres := hmGo_props rest false ([] ++ l0 ++ ['\n']) [] (Or.inl rfl)
        (Or.inr (endsNL_concat _)) rb hgo
      have hrbne : rb ≠ [] := hres.2 (Or.inr ⟨rfl, by simp⟩)
      exact endsNL_append_right (endsNL_of_endsOk_ne hres.1 hrbne)

/-- C10 (amended): for every nonempty payload, each mutating operation leaves
the payload ending in a newline **except** the documented no-op early
returns, which leave the payload byte-identical (so a pre-existing missing
final newline survives them): `add_diffstat` when no diffstat-summary line
exists, `add_signature` when no matching signature line exists,
`update_diffstat` and `filter` unconditionally, and `handle_merge` whenever
it returns successfully. -/
theorem C10_mutations_trailing_newline (ds : Str → Str) (emails : List Str)
    (name email : Str) (sob : Bool) (files : List Str) (exclude : Bool)
    (payload : Str) (hne : payload ≠ []) :
    ((splitLines payload).any diffstatNoteLine = false →
      endsNL (add_diffstat ds payload)) ∧
    endsNL (update_diffstat ds payload) ∧
    ((splitLines payload).any (sigCheckLine emails) = false →
      endsNL (add_signature emails name email sob payload)) ∧
    (∀ r, handle_merge payload = some r → endsNL r) ∧
    endsNL (pyfilter ds files exclude payload).payload := by
  refine ⟨endsNL_add_diffstat_nonnoop ds payload, endsNL_update_diffstat ds payload, ?_,
    endsNL_handle_merge hne, ?_⟩
  · intro hchk
    unfold add_signature
    rw [if_neg (by rw [hchk]; exact Bool.false_ne_true)]
    exact endsNL_sigLoop name email sob _ [] [] (splitLines_ne_nil hne)
  · exact endsNL_update_diffstat ds _

/-- C10 witness: the unconditional `update_diffstat` component of the
amended theorem at a concrete payload. -/
theorem C10_witness : endsNL (update_diffstat (fun _ => str "S") (str "x\n")) :=
  (C10_mutations_trailing_newline (fun _ => str "S") [] [] [] false [] false (str "x\n")
    (by decide)).2.1

/-- C10 counterexample: `add_diffstat` takes its no-op early return on a
nonempty payload that already carries a diffstat-summary line but no final
newline; the payload is returned unchanged and still does not end with a
newline, contradicting the claim for `add_diffstat`. -/
theorem C10_counterexample :
    add_diffstat (fun _ => str "S") (str "1 file changed, 2 insertions(+)") =
      str "1 file changed, 2 insertions(+)" ∧
    (str "1 file changed, 2 insertions(+)").getLast? ≠ some '\n' ∧
    str "1 file changed, 2 insertions(+)" ≠ [] := by
  refine ⟨?_, by decide, by decide⟩
  have h : (splitLines (str "1 file changed, 2 insertions(+)")).any diffstatNoteLine = true := by
    decide
  unfold add_diffstat
  rw [if_pos h]

/-! ## C1 / C3: `shrink_chunk` hunks -/

lemma not_chg_of_head {lines : List Str} {k : Nat} {line : Str}
    (hl : lines[k]? = some line) (h1 : ¬ line.head? = some '-')
    (h2 : ¬ line.head? = some '+') : ¬ chg lines k := by
  rintro ⟨l, hl', hd⟩
  rw [hl] at hl'
  cases hl'
  cases hd with
  | inl h => exact h1 h
  | inr h => exact h2 h

lemma lt_length_of_chg {lines : List Str} {j : Nat} (h : chg lines j) :
    j < lines.length := by
  obtain ⟨l, hl, _⟩ := h
  exact (List.getElem?_eq_some.mp hl).1

lemma mem_seg {lines : List Str} {a b : Nat} {l : Str}
    (hl : l ∈ (lines.drop a).take (b - a)) :
    ∃ j, a ≤ j ∧ j < b ∧ lines[j]? = some l := by
  obtain ⟨i, hi⟩ := List.mem_iff_getElem?.mp hl
  rw [List.getElem?_take] at hi
  by_cases hib : i < b - a
  · rw [if_pos hib, List.getElem?_drop] at hi
    exact ⟨a + i, Nat.le_add_right _ _, by omega, hi⟩
  · rw [if_neg hib] at hi
    exact absurd hi (by simp)

lemma countSeg_zero {lines : List Str} {a b : Nat} (p : Str → Bool)
    (hp : ∀ l, p l = true → l.head? = some '-' ∨ l.head? = some '+')
    (h : ∀ j, a ≤ j → j < b → ¬ chg lines j) :
    ((lines.drop a).take (b - a)).countP p = 0 := by
  rw [List.countP_eq_zero]
  intro l hl hpl
  obtain ⟨j, hja, hjb, hj⟩ := mem_seg hl
  exact h j hja hjb ⟨l, hj, hp l hpl⟩

lemma countPlus_zero {lines : List Str} {a b : Nat}
    (h : ∀ j, a ≤ j → j < b → ¬ chg lines j) : countPlus lines a b = 0 :=
  countSeg_zero _ (fun l hpl => Or.inr (by simpa using hpl)) h

lemma countMinus_zero {lines : List Str} {a b : Nat}
    (h : ∀ j, a ≤ j → j < b → ¬ chg lines j) : countMinus lines a b = 0 :=
  countSeg_zero _ (fun l hpl => Or.inl (by simpa using hpl)) h

lemma count_seg_succ {lines : List Str} {a k : Nat} {line : Str} (p : Str → Bool)
    (ha : a ≤ k) (hl : lines[k]? = some line) :
    ((lines.drop a).take (k + 1 - a)).countP p =
      ((lines.drop a).take (k - a)).countP p + (if p line then 1 else 0) := by
  have h1 : k + 1 - a = (k - a) + 1 := by omega
  rw [h1, List.take_succ, List.countP_append, List.getElem?_drop]
  have h2 : a + (k - a) = k := by omega
  rw [h2, hl]
  simp [List.countP_cons]

lemma countPlus_succ {lines : List Str} {a k : Nat} {line : Str}
    (ha : a ≤ k) (hl : lines[k]? = some line) :
    countPlus lines a (k + 1) =
      countPlus lines a k + (if line.head? = some '+' then 1 else 0) := by
  unfold countPlus
  rw [count_seg_succ _ ha hl]
  by_cases h : line.head? = some '+' <;> simp [h]

lemma countMinus_succ {lines : List Str} {a k : Nat} {line : Str}
    (ha : a ≤ k) (hl : lines[k]? = some line) :
    countMinus lines a (k + 1) =
      countMinus lines a k + (if line.head? = some '-' then 1 else 0) := by
  unfold countMinus
  rw [count_seg_succ _ ha hl]
  by_cases h : line.head? = some '-' <;> simp [h]

lemma shrinkStep_minus {len k : Nat} {line : Str} {s : ShrinkState}
    (h : line.head? = some '-') (hend : s.ende = -1) :
    shrinkStep len k line s =
      { s with
        start := if s.start < 0 then (if (k : Int) - 3 < 0 then 0 else (k : Int) - 3)
                 else s.start,
        removed := s.removed + 1, count := 0 } := by
  unfold shrinkStep
  rw [if_pos h, if_neg]
  rintro ⟨-, h2⟩
  rw [show ({ s with
        start := if s.start < 0 then (if (k : Int) - 3 < 0 then 0 else (k : Int) - 3)
                 else s.start,
        removed := s.removed + 1, count := 0 } : ShrinkState).ende = s.ende from rfl,
      hend] at h2
  exact absurd h2 (by decide)

lemma shrinkStep_plus {len k : Nat} {line : Str} {s : ShrinkState}
    (h : line.head? = some '+') (hne : ¬ line.head? = some '-') (hend : s.ende = -1) :
    shrinkStep len k line s =
      { s with
        start := if s.start < 0 then (if (k : Int) - 3 < 0 then 0 else (k : Int) - 3)
                 else s.start,
        added := s.added + 1, count := 0 } := by
  unfold shrinkStep
  rw [if_neg hne, if_pos h, if_neg]
  rintro ⟨-, h2⟩
  rw [show ({ s with
        start := if s.start < 0 then (if (k : Int) - 3 < 0 then 0 else (k : Int) - 3)
                 else s.start,
        added := s.added + 1, count := 0 } : ShrinkState).ende = s.ende from rfl,
      hend] at h2
  exact absurd h2 (by decide)

lemma shrinkStep_ctx_emit {len k : Nat} {line : Str} {s : ShrinkState}
    (hm : ¬ line.head? = some '-') (hp : ¬ line.head? = some '+')
    (hst : 0 ≤ s.start) (hend : s.ende = -1)
    (hcond : s.count + 1 > 3 ∨ k + 1 = len) (hk : k < len) :
    shrinkStep len k line s =
      { hunks := s.hunks ++ [⟨s.start.toNat, k, s.added, s.removed⟩],
        start := -1, ende := -1, added := 0, removed := 0, count := s.count + 1 } := by
  have hk2 : ¬ ((len : Int) ≤ (k : Int)) := by omega
  simp [shrinkStep, hm, hp, hend, hst, hcond, hk2]

lemma shrinkStep_ctx_skip {len k : Nat} {line : Str} {s : ShrinkState}
    (hm : ¬ line.head? = some '-') (hp : ¬ line.head? = some '+')
    (hend : s.ende = -1)
    (hcond : ¬ (s.start ≥ 0 ∧ s.ende < 0 ∧ (s.count + 1 > 3 ∨ k + 1 = len))) :
    shrinkStep len k line s = { s with count := s.count + 1 } := by
  unfold shrinkStep
  rw [if_neg hm, if_neg hp, if_neg hcond, if_neg]
  rintro ⟨-, h2⟩
  rw [show ({ s with count := s.count + 1 } : ShrinkState).ende = s.ende from rfl,
      hend] at h2
  exact absurd h2 (by decide)

lemma shrinkStep_inv {lines : List Str} {k : Nat} {line : Str} {s : ShrinkState}
    (hline : lines[k]? = some line) (hinv : ShrinkInv lines k s) :
    ShrinkInv lines (k + 1) (shrinkStep lines.length k line s) := by
  unfold ShrinkInv at hinv
  obtain ⟨hend, hklen, hgood, hcov, hrun, hidle⟩ := hinv
  have hk : k < lines.length := (List.getElem?_eq_some.mp hline).1
  by_cases hm : line.head? = some '-'
  · have hnp : ¬ line.head? = some '+' := by rw [hm]; decide
    have hchgk : chg lines k := ⟨line, hline, Or.inl hm⟩
    by_cases hst : s.start < 0
    · -- minus line, no hunk open: open a new one at max (k-3) 0
      obtain ⟨hadd0, hrem0, hdis⟩ := hidle hst
      have hnochg : ∀ j, k - 3 ≤ j → j < k → ¬ chg lines j := by
        intro j hj1 hj2
        rcases hdis with h | h | ⟨hc4, hno⟩
        · exact absurd hk (by omega)
        · exact h j hj2
        · exact hno j hj2 (by omega)
      have hstv : (if (k : Int) - 3 < 0 then 0 else (k : Int) - 3) = ((k - 3 : Nat) : Int) := by
        split <;> omega
      rw [shrinkStep_minus hm hend, if_pos hst, hstv]
      unfold ShrinkInv
      dsimp only
      refine ⟨hend, by omega, hgood, ?_, ?_, ?_⟩
      · intro j hj hchg
        by_cases hjk : j = k
        · exact Or.inr ⟨by omega, by subst hjk; omega⟩
        · rcases hcov j (by omega) hchg with h | ⟨h1, -⟩
          · exact Or.inl h
          · exact absurd h1 (by omega)
      · intro _
        unfold ShrinkRunInv
        dsimp only
        refine ⟨k - 3, k, k, rfl, by omega, hchgk, by omega, by omega, hnochg,
          by omega, hchgk, by omega, by omega, by omega, by omega, ?_, ?_, ?_⟩
        · show s.added = countPlus lines (k - 3) (k + 1)
          rw [countPlus_succ (by omega) hline, countPlus_zero hnochg, if_neg hnp, hadd0]
        · show s.removed + 1 = countMinus lines (k - 3) (k + 1)
          rw [countMinus_succ (by omega) hline, countMinus_zero hnochg, if_pos hm, hrem0]
        · intro hkl
          have h9 : lines.length - 1 = k := by omega
          rw [h9]; exact hchgk
      · intro h
        exact absurd h (by omega)
    · -- minus line with a hunk already open
      obtain ⟨st, m, p, hsst, hstk, hchgm, hstm, hmk, hpre, hclamp, hchgp, hstp,
        hpk, hgap, hcnt, hadd, hrem, -⟩ := hrun (by omega)
      rw [shrinkStep_minus hm hend, if_neg hst]
      unfold ShrinkInv
      dsimp only
      refine ⟨hend, by omega, hgood, ?_, ?_, ?_⟩
      · intro j hj hchg
        by_cases hjk : j = k
        · exact Or.inr ⟨by omega, by subst hjk; rw [hsst]; omega⟩
        · exact hcov j (by omega) hchg
      · intro _
        unfold ShrinkRunInv
        dsimp only
        refine ⟨st, m, k, hsst, by omega, hchgm, hstm, by omega, hpre, hclamp,
          hchgk, hstk, by omega, by omega, by omega, ?_, ?_, ?_⟩
        · show s.added = countPlus lines st (k + 1)
          rw [countPlus_succ hstk hline, if_neg hnp, Nat.add_zero]
          exact hadd
        · show s.removed + 1 = countMinus lines st (k + 1)
          rw [countMinus_succ hstk hline, if_pos hm, hrem]
        · intro hkl
          have h9 : lines.length - 1 = k := by omega
          rw [h9]; exact hchgk
      · intro h
        exact absurd h hst
  · by_cases hp : line.head? = some '+'
    · -- plus line
      have hchgk : chg lines k := ⟨line, hline, Or.inr hp⟩
      by_cases hst : s.start < 0
      · obtain ⟨hadd0, hrem0, hdis⟩ := hidle hst
        have hnochg : ∀ j, k - 3 ≤ j → j < k → ¬ chg lines j := by
          intro j hj1 hj2
          rcases hdis with h | h | ⟨hc4, hno⟩
          · exact absurd hk (by omega)
          · exact h j hj2
          · exact hno j hj2 (by omega)
        have hstv : (if (k : Int) - 3 < 0 then 0 else (k : Int) - 3) = ((k - 3 : Nat) : Int) := by
          split <;> omega
        rw [shrinkStep_plus hp hm hend, if_pos hst, hstv]
        unfold ShrinkInv
        dsimp only
        refine ⟨hend, by omega, hgood, ?_, ?_, ?_⟩
        · intro j hj hchg
          by_cases hjk : j = k
          · exact Or.inr ⟨by omega, by subst hjk; omega⟩
          · rcases hcov j (by omega) hchg with h | ⟨h1, -⟩
            · exact Or.inl h
            · exact absurd h1 (by omega)
        · intro _
          unfold ShrinkRunInv
          dsimp only
          refine ⟨k - 3, k, k, rfl, by omega, hchgk, by omega, by omega, hnochg,
            by omega, hchgk, by omega, by omega, by omega, by omega, ?_, ?_, ?_⟩
          · show s.added + 1 = countPlus lines (k - 3) (k + 1)
            rw [countPlus_succ (by omega) hline, countPlus_zero hnochg, if_pos hp, hadd0]
          · show s.removed = countMinus lines (k - 3) (k + 1)
            rw [countMinus_succ (by omega) hline, countMinus_zero hnochg, if_neg hm, hrem0]
          · intro hkl
            have h9 : lines.length - 1 = k := by omega
            rw [h9]; exact hchgk
        · intro h
          exact absurd h (by omega)
      · obtain ⟨st, m, p, hsst, hstk, hchgm, hstm, hmk, hpre, hclamp, hchgp, hstp,
          hpk, hgap, hcnt, hadd, hrem, -⟩ := hrun (by omega)
        rw [shrinkStep_plus hp hm hend, if_neg hst]
        unfold ShrinkInv
        dsimp only
        refine ⟨hend, by omega, hgood, ?_, ?_, ?_⟩
        · intro j hj hchg
          by_cases hjk : j = k
          · exact Or.inr ⟨by omega, by subst hjk; rw [hsst]; omega⟩
          · exact hcov j (by omega) hchg
        · intro _
          unfold ShrinkRunInv
          dsimp only
          refine ⟨st, m, k, hsst, by omega, hchgm, hstm, by omega, hpre, hclamp,
            hchgk, hstk, by omega, by omega, by omega, ?_, ?_, ?_⟩
          · show s.added + 1 = countPlus lines st (k + 1)
            rw [countPlus_succ hstk hline, if_pos hp, hadd]
          · show s.removed = countMinus lines st (k + 1)
            rw [countMinus_succ hstk hline, if_neg hm, Nat.add_zero]
            exact hrem
          · intro hkl
            have h9 : lines.length - 1 = k := by omega
            rw [h9]; exact hchgk
        · intro h
          exact absurd h hst
    · -- context line
      have hnc : ¬ chg lines k := not_chg_of_head hline hm hp
      by_cases hst : s.start < 0
      · have hcond2 : ¬ (s.start ≥ 0 ∧ s.ende < 0 ∧ (s.count + 1 > 3 ∨ k + 1 = lines.length)) := by
          rintro ⟨h1, -, -⟩
          omega
        rw [shrinkStep_ctx_skip hm hp hend hcond2]
        obtain ⟨hadd0, hrem0, hdis⟩ := hidle hst
        unfold ShrinkInv
        dsimp only
        refine ⟨hend, by omega, hgood, ?_, ?_, ?_⟩
        · intro j hj hchg
          by_cases hjk : j = k
          · subst hjk; exact absurd hchg hnc
          · exact hcov j (by omega) hchg
        · intro h
          exact absurd h (by omega)
        · intro _
          unfold ShrinkIdleInv
          dsimp only
          refine ⟨hadd0, hrem0, ?_⟩
          rcases hdis with h | h | ⟨hc4, hno⟩
          · exact absurd hk (by omega)
          · refine Or.inr (Or.inl ?_)
            intro j hj
            by_cases hjk : j = k
            · subst hjk; exact hnc
            · exact h j (by omega)
          · refine Or.inr (Or.inr ⟨by omega, ?_⟩)
            intro j hj1 hj2
            by_cases hjk : j = k
            · subst hjk; exact hnc
            · exact hno j (by omega) (by omega)
      · obtain ⟨st, m, p, hsst, hstk, hchgm, hstm, hmk, hpre, hclamp, hchgp, hstp,
          hpk, hgap, hcnt, hadd, hrem, -⟩ := hrun (by omega)
        by_cases hcond : s.count + 1 > 3 ∨ k + 1 = lines.length
        · -- hunk emission
          rw [shrinkStep_ctx_emit hm hp (by omega) hend hcond hk]
          have htn : s.start.toNat = st := by omega
          rw [htn]
          unfold ShrinkInv
          dsimp only
          refine ⟨rfl, by omega, ?_, ?_, ?_, ?_⟩
          · intro h hh
            rcases List.mem_append.mp hh with h1 | h1
            · exact hgood h h1
            · have h2 : h = ⟨st, k, s.added, s.removed⟩ := by simpa using h1
              subst h2
              unfold GoodHunk
              dsimp only
              exact ⟨by omega, hk, hadd, hrem, m, p, hchgm, hstm, by omega, hpre,
                hclamp, hchgp, hstp, by omega, hgap, by omega⟩
          · intro j hj hchg
            by_cases hjk : j = k
            · subst hjk; exact absurd hchg hnc
            · rcases hcov j (by omega) hchg with ⟨h, hmem, hcv⟩ | ⟨h0, hle⟩
              · exact Or.inl ⟨h, List.mem_append_left _ hmem, hcv⟩
              · refine Or.inl ⟨⟨st, k, s.added, s.removed⟩,
                  List.mem_append_right _ (by simp), ?_, by show j < k; omega⟩
                show st ≤ j
                rw [hsst] at hle
                exact_mod_cast hle
          · intro h
            exact absurd h (by decide)
          · intro _
            unfold ShrinkIdleInv
            dsimp only
            refine ⟨rfl, rfl, ?_⟩
            rcases hcond with h4 | hlen
            · refine Or.inr (Or.inr ⟨by omega, ?_⟩)
              intro j hj1 hj2
              by_cases hjk : j = k
              · subst hjk; exact hnc
              · exact hgap j (by omega) (by omega)
            · exact Or.inl (by omega)
        · -- plain context line, no emission
          have hcond2 : ¬ (s.start ≥ 0 ∧ s.ende < 0 ∧ (s.count + 1 > 3 ∨ k + 1 = lines.length)) := by
            rintro ⟨-, -, h3⟩
            exact hcond h3
          rw [shrinkStep_ctx_skip hm hp hend hcond2]
          push_neg at hcond
          unfold ShrinkInv
          dsimp only
          refine ⟨hend, by omega, hgood, ?_, ?_, ?_⟩
          · intro j hj hchg
            by_cases hjk : j = k
            · subst hjk; exact absurd hchg hnc
            · exact hcov j (by omega) hchg
          · intro _
            unfold ShrinkRunInv
            dsimp only
            refine ⟨st, m, p, hsst, by omega, hchgm, hstm, by omega, hpre, hclamp,
              hchgp, hstp, by omega, ?_, by omega, ?_, ?_, ?_⟩
            · intro j hj1 hj2
              by_cases hjk : j = k
              · subst hjk; exact hnc
              · exact hgap j hj1 (by omega)
            · show s.added = countPlus lines st (k + 1)
              rw [countPlus_succ hstk hline, if_neg hp, Nat.add_zero]
              exact hadd
            · show s.removed = countMinus lines st (k + 1)
              rw [countMinus_succ hstk hline, if_neg hm, Nat.add_zero]
              exact hrem
            · intro hkl
              exact absurd hkl (by omega)
          · intro h
            exact absurd h hst

lemma shrinkGo_inv {lines : List Str} :
    ∀ (rest : List Str) (k : Nat) (s : ShrinkState),
      lines.drop k = rest → ShrinkInv lines k s →
      ShrinkInv lines lines.length (shrinkGo lines.length k rest s)
  | [], k, s, hrest, hinv => by
      have hkl : lines.length ≤ k := List.drop_eq_nil_iff.mp hrest
      have hk2 : k ≤ lines.length := by
        unfold ShrinkInv at hinv
        exact hinv.2.1
      have h3 : lines.length = k := by omega
      show ShrinkInv lines lines.length s
      rw [h3]
      exact hinv
  | line :: rest, k, s, hrest, hinv => by
      have hline : lines[k]? = some line := by
        have h1 : (lines.drop k)[0]? = lines[k + 0]? := List.getElem?_drop lines k 0
        rw [hrest] at h1
        simpa using h1.symm
      have hrest' : lines.drop (k + 1) = rest := by
        rw [← List.drop_drop, hrest]
        rfl
      exact shrinkGo_inv rest (k + 1) _ hrest' (shrinkStep_inv hline hinv)

lemma shrinkRun_inv (lines : List Str) :
    ShrinkInv lines lines.length (shrinkRun lines) := by
  apply shrinkGo_inv lines 0 shrinkInit (by simp)
  unfold ShrinkInv ShrinkIdleInv shrinkInit
  refine ⟨rfl, by omega, by simp, by omega, ?_, ?_⟩
  · intro h
    exact absurd h (by decide)
  · intro _
    exact ⟨rfl, rfl, Or.inr (Or.inl (by omega))⟩

/-- C1: for every chunk and every hunk that `shrink_chunk` emits, the output is
exactly the concatenation of the rendered hunks, the emitted line slice
`lines[start:end]` has `end - start` lines, the recorded `added` (resp.
`removed`) counter equals the number of emitted lines beginning with `'+'`
(resp. `'-'`), and the hunk text is the header
`@@ -<start+1>,<(end-start)-added> +<start+1>,<(end-start)-removed> @@`
followed by the literal emitted lines, so the header length fields can be
reconstructed exactly by counting the emitted lines. -/
theorem C1_shrink_chunk_header (chunk : Str) (h : Hunk)
    (hmem : h ∈ shrinkChunkHunks chunk) :
    shrink_chunk chunk =
      ((shrinkChunkHunks chunk).map (renderHunk (splitLines chunk))).flatten ∧
    (((splitLines chunk).drop h.start).take (h.ende - h.start)).length =
      h.ende - h.start ∧
    h.added =
      (((splitLines chunk).drop h.start).take (h.ende - h.start)).countP
        (fun l => l.head? == some '+') ∧
    h.removed =
      (((splitLines chunk).drop h.start).take (h.ende - h.start)).countP
        (fun l => l.head? == some '-') ∧
    renderHunk (splitLines chunk) h =
      str "@@ -" ++ intToStr ((h.start : Int) + 1) ++ str "," ++
        intToStr (((h.ende - h.start : Nat) : Int) - (h.added : Int)) ++
      str " +" ++ intToStr ((h.start : Int) + 1) ++ str "," ++
        intToStr (((h.ende - h.start : Nat) : Int) - (h.removed : Int)) ++
      str " @@" ++ ['\n'] ++
      joinNL (((splitLines chunk).drop h.start).take (h.ende - h.start)) ++ ['\n'] := by
  have hinv := shrinkRun_inv (splitLines chunk)
  unfold ShrinkInv at hinv
  have hg := hinv.2.2.1 h hmem
  unfold GoodHunk at hg
  obtain ⟨hse, helen, hadd, hrem, -⟩ := hg
  refine ⟨rfl, ?_, hadd, hrem, ?_⟩
  · simp only [List.length_take, List.length_drop]
    omega
  · unfold renderHunk
    have h1 : (h.ende : Int) - (h.start : Int) = ((h.ende - h.start : Nat) : Int) := by
      omega
    rw [h1]

theorem C1_witness :
    (⟨0, 6, 1, 1⟩ : Hunk) ∈ shrinkChunkHunks (str "ctx\n-a\n+b\nc1\nc2\nc3\nc4\n") ∧
    (⟨0, 6, 1, 1⟩ : Hunk).added =
      (((splitLines (str "ctx\n-a\n+b\nc1\nc2\nc3\nc4\n")).drop 0).take 6).countP
        (fun l => l.head? == some '+') :=
  ⟨by decide, (C1_shrink_chunk_header (str "ctx\n-a\n+b\nc1\nc2\nc3\nc4\n")
    ⟨0, 6, 1, 1⟩ (by decide)).2.2.1⟩

/-- C3 (amended): every hunk `shrink_chunk` emits starts 3 lines before the
first changed line of its run (clamped to 0) and ends at
`min (last_change + 4) (line_count - 1)` — i.e. after at most 3 trailing
context lines, but always stopping *before* the final input line.  Provided
the chunk's final line is not itself a changed line, every changed line of
the input lands inside some emitted hunk.  (A changed final line is dropped:
see the counterexample.) -/
theorem C3_shrink_chunk_boundaries (chunk : Str)
    (hlast : ∀ l, (splitLines chunk).getLast? = some l →
      ¬ l.head? = some '-' ∧ ¬ l.head? = some '+') :
    (∀ j, chg (splitLines chunk) j →
      ∃ h ∈ shrinkChunkHunks chunk, h.start ≤ j ∧ j < h.ende) ∧
    (∀ h ∈ shrinkChunkHunks chunk,
      ∃ m p, chg (splitLines chunk) m ∧ h.start ≤ m ∧ m < h.ende ∧
        (∀ j, h.start ≤ j → j < m → ¬ chg (splitLines chunk) j) ∧
        (h.start : Int) = max ((m : Int) - 3) 0 ∧
        chg (splitLines chunk) p ∧ p < h.ende ∧
        (∀ j, p < j → j < h.ende → ¬ chg (splitLines chunk) j) ∧
        h.ende = min (p + 4) ((splitLines chunk).length - 1)) := by
  have hinv := shrinkRun_inv (splitLines chunk)
  unfold ShrinkInv at hinv
  obtain ⟨-, -, hgood, hcov, hrun, -⟩ := hinv
  have hstart : (shrinkRun (splitLines chunk)).start < 0 := by
    by_contra hns
    push_neg at hns
    obtain ⟨st, m, p, -, -, -, -, -, -, -, -, -, -, -, -, -, -, hlastc⟩ := hrun hns
    obtain ⟨l, hl, hd⟩ := hlastc rfl
    have hglast : (splitLines chunk).getLast? = some l := by
      rw [List.getLast?_eq_getElem?]
      exact hl
    have h2 := hlast l hglast
    rcases hd with h | h
    · exact h2.1 h
    · exact h2.2 h
  refine ⟨?_, ?_⟩
  · intro j hchg
    rcases hcov j (lt_length_of_chg hchg) hchg with h | ⟨h1, -⟩
    · exact h
    · exact absurd h1 (by omega)
  · intro h hmem
    have hg := hgood h hmem
    unfold GoodHunk at hg
    obtain ⟨-, -, -, -, m, p, hchgm, hstm, hmk, hpre, hclamp, hchgp, -, hpk, hgap, hende⟩ := hg
    exact ⟨m, p, hchgm, hstm, hmk, hpre, hclamp, hchgp, hpk, hgap, hende⟩

theorem C3_witness :
    ∃ h ∈ shrinkChunkHunks (str "a\n-x\n+y\nc\n"), h.start ≤ 1 ∧ 1 < h.ende :=
  (C3_shrink_chunk_boundaries (str "a\n-x\n+y\nc\n")
    (by
      intro l hl
      have h3 : (splitLines (str "a\n-x\n+y\nc\n")).getLast? = some (str "c") := by decide
      rw [h3] at hl
      have h2 := (Option.some_inj.mp hl).symm
      subst h2
      exact ⟨by decide, by decide⟩)).1 1
    ⟨str "-x", by decide, Or.inl (by decide)⟩

/-- C3 counterexample: on the chunk `"ctx\n-gone\n"` the final line is a
changed (`-`) line; `shrink_chunk` emits no hunk at all and returns the
empty string, so the changed line appears in no emitted hunk, refuting the
claim's coverage statement for chunks whose last line is changed. -/
theorem C3_counterexample :
    chg (splitLines (str "ctx\n-gone\n")) 1 ∧
    shrinkChunkHunks (str "ctx\n-gone\n") = [] ∧
    shrink_chunk (str "ctx\n-gone\n") = str "" :=
  ⟨⟨str "-gone", by decide, Or.inl (by decide)⟩, by decide, by decide⟩
